import Mathlib

/-!
# gostream: the lazy pipeline stages of `stream/transformers.go`

A shallow embedding of the pull-iterator protocol and of the stages `Map`,
`Filter`, `Limit`, `Distinct` and `Sorted`.

* A Go `iterator[T]` is a closure `func() (T, bool)`.  It is embedded as its
  code together with the variables it captures: the captured variables are a
  state of some type `σ`, and one invocation maps the state to the result and
  the state afterwards.  The Go result `(v, true)` is `some v`, the result
  `(zeroVal, false)` is `none`.
* `Filter`, `Distinct` and `ToSlice` loop, and a loop need not return.  Every
  invocation therefore takes a fuel; `none` on the outside says that the
  invocation did not return within the fuel.  A looping function spends one
  unit of fuel on each turn of its `for`.
* Go `int` is embedded as `Int`.  `count` in `Limit` starts at `0` and, for
  `0 ≤ maxSize`, never exceeds `maxSize`, so `count++` cannot overflow there;
  for a negative `maxSize` `count` is an unbounded integer.
* Upstream invocations are observed by wrapping the upstream iterator: `counted`
  adds a counter of its invocations to its state, `logged` a log of the
  elements it yields.
-/

namespace stream

/-- Go `iterator[T]`, a closure `func() (T, bool)` whose captured variables have
type `σ`: `it fuel s = some (r, s')` says that an invocation in state `s`
returns `r` and leaves the state `s'`; `none` says it did not return within
`fuel`. -/
abbrev iterator (σ T : Type) : Type := Nat → σ → Option (Option T × σ)

/-- Go `iterableStream[T]`: the finiteness tag `infinite` and the function
`supply`, which builds a fresh iterator.  `supply` is embedded as the state of
the iterator it returns (`supply`, which may itself run a loop, takes a fuel)
together with the code `next` of that iterator. -/
structure iterableStream (T : Type) where
  σ : Type
  infinite : Bool
  supply : Nat → Option σ
  next : iterator σ T

variable {T IT OT : Type}

/-- Modelled from the spec: `isInfinite()`, the method of `Stream[T]` that
reports the finiteness tag of a pipeline (§6 "the computed Finiteness Tag"). -/
def iterableStream.isInfinite (st : iterableStream T) : Bool := st.infinite

/-- Modelled from the spec: `iterator()`, the method of `Stream[T]` that
"obtains a fresh Pull Iterator over the transformed sequence" (§6): it calls
`supply`. -/
def iterableStream.iterator (st : iterableStream T) (fuel : Nat) : Option st.σ :=
  st.supply fuel

/-- Modelled from the spec: `finishedIterator[T]()`, the result of an exhausted
iterator: a zero value with `has_value = false` (§4.1). -/
def finishedIterator {σ : Type} (s : σ) : Option (Option T × σ) := some (none, s)

/-- The closure returned by the `supply` of `Map` (lines 14-21). -/
def Map.next {σ : Type} (next : iterator σ IT) (mapper : IT → OT) : iterator σ OT :=
  fun fuel s =>
    match next fuel s with
    | none => none
    | some (none, s') => some (none, s')
    | some (some n, s') => some (some (mapper n), s')

/-- Go `Map` (lines 9-24). -/
def Map (input : iterableStream IT) (mapper : IT → OT) : iterableStream OT where
  σ := input.σ
  infinite := input.isInfinite
  supply := fun fuel => input.iterator fuel
  next := Map.next input.next mapper

/-- Go `(*iterableStream[T]).Map` (lines 26-28). -/
def iterableStream.Map (bs : iterableStream T) (mapper : T → T) : iterableStream T :=
  stream.Map bs mapper

/-- The closure returned by the `supply` of `Filter` (lines 35-46): the `for`
loop pulls upstream until an element satisfies `predicate` or upstream ends. -/
def Filter.next {σ : Type} (next : iterator σ T) (predicate : T → Bool) : iterator σ T
  | 0, _ => none
  | fuel + 1, s =>
    match next fuel s with
    | none => none
    | some (none, s') => some (none, s')
    | some (some n, s') =>
      if predicate n then some (some n, s') else Filter.next next predicate fuel s'

/-- Go `(*iterableStream[T]).Filter` (lines 30-48). -/
def iterableStream.Filter (as : iterableStream T) (predicate : T → Bool) : iterableStream T where
  σ := as.σ
  infinite := as.infinite
  supply := fun fuel => as.iterator fuel
  next := Filter.next as.next predicate

/-- The closure returned by the `supply` of `Limit` (lines 56-69); its state is
`(count, next)`. -/
def Limit.next {σ : Type} (next : iterator σ T) (maxSize : Int) : iterator (Int × σ) T :=
  fun fuel st =>
    if st.1 = maxSize then some (none, st)
    else
      match next fuel st.2 with
      | none => none
      | some (none, s') => some (none, (maxSize, s'))
      | some (some n, s') => some (some n, (st.1 + 1, s'))

/-- Go `(*iterableStream[T]).Limit` (lines 50-71). -/
def iterableStream.Limit (as : iterableStream T) (maxSize : Int) : iterableStream T where
  σ := Int × as.σ
  infinite := false
  supply := fun fuel => (as.iterator fuel).map (fun s => (0, s))
  next := Limit.next as.next maxSize

/-- The closure returned by the `supply` of `Distinct` (lines 79-91); its state
is `(elems, next)`.  The Go set `map[T]struct{}` is embedded as the list of its
keys. -/
def Distinct.next {σ : Type} [DecidableEq T] (next : iterator σ T) : iterator (List T × σ) T
  | 0, _ => none
  | fuel + 1, st =>
    match next fuel st.2 with
    | none => none
    | some (none, s') => some (none, (st.1, s'))
    | some (some n, s') =>
      if n ∈ st.1 then Distinct.next next fuel (st.1, s')
      else some (some n, (n :: st.1, s'))

/-- Go `Distinct` (lines 75-93).  The struct literal sets only `supply`, so the
field `infinite` has the zero value `false`. -/
def Distinct [DecidableEq T] (input : iterableStream T) : iterableStream T where
  σ := List T × input.σ
  infinite := false
  supply := fun fuel => (input.iterator fuel).map (fun s => ([], s))
  next := Distinct.next input.next

/-- The loop of `ToSlice`: invoke the iterator until it signals termination,
collecting the elements; returns the slice and the state the iterator is left
in. -/
def drain {σ : Type} (next : iterator σ T) : Nat → σ → Option (List T × σ)
  | 0, _ => none
  | fuel + 1, s =>
    match next fuel s with
    | none => none
    | some (none, s') => some ([], s')
    | some (some n, s') =>
      match drain next fuel s' with
      | none => none
      | some (res, s'') => some (n :: res, s'')

/-- Modelled from the spec: `ToSlice()`, the terminal operation that
materialises a pipeline into a slice: it obtains a fresh iterator and
"repeatedly invokes the outermost Pull Iterator until termination" (§6). -/
def iterableStream.ToSlice (st : iterableStream T) (fuel : Nat) : Option (List T) :=
  match st.iterator fuel with
  | none => none
  | some s => (drain st.next fuel s).map Prod.fst

/-- Modelled from the spec: `assertFinite`, which "queries the upstream
pipeline's Finiteness Tag and raises a construction-time fatal condition if it
is infinite" (§6).  The fatal condition is `Except.error`. -/
def assertFinite (st : iterableStream T) : Except String Unit :=
  if st.isInfinite then Except.error "operation not allowed on infinite streams"
  else Except.ok ()

/-- The closure returned by the `supply` of `Sorted` (lines 102-109); its state
is the slice `items`. -/
def Sorted.next : iterator (List T) T :=
  fun _ items =>
    match items with
    | [] => finishedIterator items
    | n :: rest => some (some n, rest)

/-- The stream that `Sorted` returns once `assertFinite` has passed (lines
97-111).  `supply` runs `is.ToSlice()` and `order.SortSlice` (lines 100-101)
before it returns the closure, so the state of a fresh iterator is the sorted
slice `items`. -/
def Sorted.stream (SortSlice : List T → (T → T → Int) → List T)
    (is : iterableStream T) (comparator : T → T → Int) : iterableStream T where
  σ := List T
  infinite := false
  supply := fun fuel => (is.ToSlice fuel).map (fun items => SortSlice items comparator)
  next := Sorted.next

/-- Go `(*iterableStream[T]).Sorted` (lines 95-112).  `order.Comparator[T]` is
a function `T → T → Int` (negative, zero, positive); `order.SortSlice`, which
is outside this file of the repository, is the parameter `SortSlice`.  The
call of `assertFinite` comes first: when it raises, no stream is returned. -/
def iterableStream.Sorted (SortSlice : List T → (T → T → Int) → List T)
    (is : iterableStream T) (comparator : T → T → Int) : Except String (iterableStream T) :=
  match assertFinite is with
  | Except.error e => Except.error e
  | Except.ok () => Except.ok (Sorted.stream SortSlice is comparator)

/-- Modelled from the spec: the iterator of a finite Element Source (§2)
wrapping a slice; its state is the part of the slice not yet yielded. -/
def OfSlice.next : iterator (List T) T :=
  fun _ s =>
    match s with
    | [] => some (none, [])
    | x :: rest => some (some x, rest)

/-- Modelled from the spec: a finite Element Source (§2) wrapping a slice,
tagged finite; every call of `iterator()` returns a fresh iterator at the
start of the slice. -/
def OfSlice (elems : List T) : iterableStream T where
  σ := List T
  infinite := false
  supply := fun _ => some elems
  next := OfSlice.next

/-- Modelled from the spec: the iterator of an infinite Element Source (§2),
the sequence `seed, f seed, f (f seed), ...`; its state is the next element and
every invocation yields an element. -/
def Iterate.next (f : T → T) : iterator T T :=
  fun _ s => some (some s, f s)

/-- Modelled from the spec: the stream of the infinite Element Source
`seed, f seed, f (f seed), ...`, tagged infinite. -/
def Iterate (seed : T) (f : T → T) : iterableStream T where
  σ := T
  infinite := true
  supply := fun _ => some seed
  next := Iterate.next f

/-- Modelled from the spec: an Element Source (§2) every invocation of which
returns: `step` is the code of its iterator, `init` the state of a fresh
iterator, `infinite` its finiteness tag. -/
def Source (σ : Type) (infinite : Bool) (init : σ) (step : σ → Option T × σ) :
    iterableStream T where
  σ := σ
  infinite := infinite
  supply := fun _ => some init
  next := fun _ s => some (step s)

/-- Modelled from the spec: the ascending comparator on integers (§8
"Sorted(ascending)"): negative, zero or positive as `a` is below, equal to or
above `b`. -/
def ascending (a b : Int) : Int :=
  if a = b then 0 else if a < b then -1 else 1

/-- Modelled from the spec: a comparator-based sort (§4.6), here insertion
sort, standing for `order.SortSlice` where a concrete sort is needed. -/
def insertionSortSlice (items : List T) (comparator : T → T → Int) : List T :=
  items.insertionSort (fun a b => comparator a b ≤ 0)

/-! ## Observing an iterator -/

/-- Instrumentation of an upstream iterator: the same iterator with a counter
of the invocations made of it. -/
def counted {σ : Type} (it : iterator σ T) : iterator (σ × Nat) T :=
  fun fuel st =>
    match it fuel st.1 with
    | none => none
    | some (r, s') => some (r, (s', st.2 + 1))

/-- The results of `k` successive invocations of an iterator, and the state
after them. -/
def invocations {σ : Type} (it : iterator σ T) (fuel : Nat) : Nat → σ → Option (List (Option T) × σ)
  | 0, s => some ([], s)
  | k + 1, s =>
    match it fuel s with
    | none => none
    | some (r, s') =>
      match invocations it fuel k s' with
      | none => none
      | some (rs, s'') => some (r :: rs, s'')

/-- The first `k` elements of the infinite sequence generated by `gen` from
state `s`, and the state after them. -/
def generated {σ : Type} (gen : σ → T × σ) : Nat → σ → List T × σ
  | 0, s => ([], s)
  | k + 1, s => ((gen s).1 :: (generated gen k (gen s).2).1, (generated gen k (gen s).2).2)

/-- The elements of `S` not in `seen`, each at its first occurrence. -/
def firstOccurrences [DecidableEq T] : List T → List T → List T
  | _, [] => []
  | seen, x :: xs =>
    if x ∈ seen then firstOccurrences seen xs else x :: firstOccurrences (x :: seen) xs

/-! ## Fuel: an invocation that returns keeps its result with more fuel -/

/-- An iterator is fuel-monotone when more fuel never changes a result. -/
def FuelMono {σ : Type} (it : iterator σ T) : Prop :=
  ∀ f f' s r, f ≤ f' → it f s = some r → it f' s = some r

/-- The iterator `it`, started in state `s`, yields the elements of `S` in
order, then signals termination and is left in state `s'`. -/
inductive Yields {σ : Type} (it : iterator σ T) : σ → List T → σ → Prop
  | done {f : Nat} {s s' : σ} : it f s = some (none, s') → Yields it s [] s'
  | more {f : Nat} {s s1 s' : σ} {x : T} {xs : List T} :
      it f s = some (some x, s1) → Yields it s1 xs s' → Yields it s (x :: xs) s'

/-! ## The finiteness tag -/

/-- Draining a fresh iterator of the pipeline terminates: `ToSlice` returns. -/
def Terminates (st : iterableStream T) : Prop :=
  ∃ fuel xs, st.ToSlice fuel = some xs

/-- The finiteness tag of a pipeline is accurate: a pipeline tagged finite can
be drained. -/
def TagAccurate (st : iterableStream T) : Prop :=
  st.isInfinite = false → Terminates st

/-- Pipelines built from a source every invocation of which returns and whose
tag is accurate, through `Map` stages, `Limit` stages with a non-negative
`maxSize`, and `Filter` and `Distinct` stages over finite-tagged pipelines. -/
inductive Built : {T : Type} → iterableStream T → Prop
  | source {T σ : Type} (infinite : Bool) (init : σ) (step : σ → Option T × σ) :
      TagAccurate (Source σ infinite init step) → Built (Source σ infinite init step)
  | map {T U : Type} (st : iterableStream T) (mapper : T → U) :
      Built st → Built (Map st mapper)
  | filter {T : Type} (st : iterableStream T) (predicate : T → Bool) :
      Built st → st.isInfinite = false → Built (st.Filter predicate)
  | limit {T : Type} (st : iterableStream T) (maxSize : Int) :
      Built st → 0 ≤ maxSize → Built (st.Limit maxSize)
  | distinct {T : Type} [DecidableEq T] (st : iterableStream T) :
      Built st → st.isInfinite = false → Built (Distinct st)

/-- A fresh iterator of the pipeline `st` is obtained, yields exactly the
elements of `S` in order, and then signals termination. -/
def Produces (st : iterableStream T) (S : List T) : Prop :=
  FuelMono st.next ∧
    ∃ s0 s', (∃ F, ∀ fuel, F ≤ fuel → st.iterator fuel = some s0) ∧ Yields st.next s0 S s'

/-- Modelled from the spec: an Element Source that does not keep to the
protocol of §3: its iterator signals termination and then yields `x` again,
in turns (the state says whether the next invocation signals termination). -/
def resurrecting (x : T) : iterator Bool T :=
  fun _ b => some (if b then none else some x, !b)

/-- The invariant carried through the stages of a pipeline: the iterator is
fuel-monotone, and there is a set `I` of iterator states that holds the state
of a fresh iterator, in which every invocation returns, which an invocation
that yields an element does not leave, and from which, when the pipeline is
tagged finite, the iterator yields finitely many elements and terminates. -/
def Sound (st : iterableStream T) : Prop :=
  FuelMono st.next ∧
    ∃ I : st.σ → Prop,
      (∃ s0, I s0 ∧ ∃ F, ∀ fuel, F ≤ fuel → st.iterator fuel = some s0) ∧
      (∀ s, I s → ∃ f r, st.next f s = some r) ∧
      (∀ s f x s', I s → st.next f s = some (some x, s') → I s') ∧
      (st.isInfinite = false → ∀ s, I s → ∃ S s', Yields st.next s S s')

/-- The pipeline of the counterexample to the accuracy of the tag: `Limit(1)`
over a `Filter` that rejects everything over the counting source. -/
def limitOfEmptyFilter : iterableStream Int :=
  ((Iterate (0 : Int) (· + 1)).Filter (fun _ => false)).Limit 1

/-- The iterator never yields after it has signalled termination: after an
invocation that signalled termination, the next invocation (with enough fuel)
signals termination too. -/
def NoResurrection {σ : Type} (it : iterator σ T) : Prop :=
  ∀ f s s', it f s = some (none, s') → ∃ F s'', ∀ f', F ≤ f' → it f' s' = some (none, s'')

/-- Pipelines built from a source whose iterator never yields after it has
signalled termination, through `Map`, `Filter`, `Limit`, `Distinct` and
`Sorted` stages. -/
inductive Staged : {T : Type} → iterableStream T → Prop
  | source {T : Type} (src : iterableStream T) : NoResurrection src.next → Staged src
  | map {T U : Type} (st : iterableStream T) (mapper : T → U) :
      Staged st → Staged (Map st mapper)
  | filter {T : Type} (st : iterableStream T) (predicate : T → Bool) :
      Staged st → Staged (st.Filter predicate)
  | limit {T : Type} (st : iterableStream T) (maxSize : Int) :
      Staged st → Staged (st.Limit maxSize)
  | distinct {T : Type} [DecidableEq T] (st : iterableStream T) :
      Staged st → Staged (Distinct st)
  | sorted {T : Type} (SortSlice : List T → (T → T → Int) → List T) (st : iterableStream T)
      (comparator : T → T → Int) (out : iterableStream T) :
      Staged st → st.Sorted SortSlice comparator = Except.ok out → Staged out

/-- Instrumentation of an upstream iterator: the same iterator with a log of
the elements it has yielded, in order. -/
def logged {σ : Type} (it : iterator σ T) : iterator (σ × List T) T :=
  fun fuel st =>
    match it fuel st.1 with
    | none => none
    | some (r, s') => some (r, (s', st.2 ++ r.toList))

/-- The number of source elements that have to be looked at to find `n`
elements satisfying `p`: the length of the shortest run at the head of the
list that holds `n` of them (`0` for `n = 0`), or, when the list holds fewer,
its length and one more for the invocation that finds it empty. -/
def pullsNeeded (p : T → Bool) : Nat → List T → Nat
  | 0, _ => 0
  | _ + 1, [] => 1
  | n + 1, x :: xs => if p x then pullsNeeded p n xs + 1 else pullsNeeded p (n + 1) xs + 1

/-- The store of the captured variables: the cells of the variables `next`
(upstream iterators, each in its state), of the variables `count` and of the
variables `elems`. -/
structure Store (σ T : Type) where
  nexts : List σ
  counts : List Int
  elems : List (List T)

/-- The closure that the `supply` of `Limit` returns (line 56): the addresses
of the variables `next` and `count` it captures. -/
structure Limit.Closure where
  next : Nat
  count : Nat

/-- One invocation of the closure of `Limit` (lines 56-69) over the store.  A
closure whose addresses are not in the store does not occur (`supply`
allocates them); it is given no result. -/
def Limit.invoke {σ : Type} (up : iterator σ T) (maxSize : Int) (fuel : Nat)
    (c : Limit.Closure) (h : Store σ T) : Option (Option T × Store σ T) :=
  match h.counts[c.count]?, h.nexts[c.next]? with
  | some count, some s =>
    if count = maxSize then some (none, h)
    else
      match up fuel s with
      | none => none
      | some (none, s') =>
        some (none, { h with nexts := h.nexts.set c.next s', counts := h.counts.set c.count maxSize })
      | some (some n, s') =>
        some (some n,
          { h with nexts := h.nexts.set c.next s', counts := h.counts.set c.count (count + 1) })
  | _, _ => none

/-- The closure that the `supply` of `Distinct` returns (line 79): the
addresses of the variables `next` and `elems` it captures. -/
structure Distinct.Closure where
  next : Nat
  elems : Nat

/-- One invocation of the closure of `Distinct` (lines 79-91) over the store. -/
def Distinct.invoke {σ : Type} [DecidableEq T] (up : iterator σ T) :
    Nat → Distinct.Closure → Store σ T → Option (Option T × Store σ T)
  | 0, _, _ => none
  | fuel + 1, c, h =>
    match h.elems[c.elems]?, h.nexts[c.next]? with
    | some elems, some s =>
      match up fuel s with
      | none => none
      | some (none, s') => some (none, { h with nexts := h.nexts.set c.next s' })
      | some (some n, s') =>
        if n ∈ elems then Distinct.invoke up fuel c { h with nexts := h.nexts.set c.next s' }
        else
          some (some n,
            { h with nexts := h.nexts.set c.next s', elems := h.elems.set c.elems (n :: elems) })
    | _, _ => none

/-- Two closures over one store, invoked in the order of a schedule (`true`:
the first closure, `false`: the second): the results of either closure, in
order, and the store afterwards. -/
def runTwo {C H : Type} (invoke : C → H → Option (Option T × H)) :
    List Bool → C → C → H → Option ((List (Option T) × List (Option T)) × H)
  | [], _, _, h => some (([], []), h)
  | true :: rest, c, d, h =>
    match invoke c h with
    | none => none
    | some (r, h') =>
      match runTwo invoke rest c d h' with
      | none => none
      | some (out, h'') => some ((r :: out.1, out.2), h'')
  | false :: rest, c, d, h =>
    match invoke d h with
    | none => none
    | some (r, h') =>
      match runTwo invoke rest c d h' with
      | none => none
      | some (out, h'') => some ((out.1, r :: out.2), h'')

/-! # Theorems -/

theorem Iterate_next_mono (f : T → T) : FuelMono (Iterate.next f) :=
  fun _ _ _ _ _ h => h

theorem Map_next_mono {σ : Type} {up : iterator σ IT} (hup : FuelMono up) (mapper : IT → OT) :
    FuelMono (Map.next up mapper) := by
  intro f f' s r hle h
  simp only [Map.next] at h ⊢
  cases hu : up f s with
  | none => simp [hu] at h
  | some v =>
    rw [hup f f' s v hle hu]
    rw [hu] at h
    exact h

theorem Filter_next_mono {σ : Type} {up : iterator σ T} (hup : FuelMono up) (p : T → Bool) :
    FuelMono (Filter.next up p) := by
  intro f
  induction f with
  | zero => intro f' s r _ h; simp [Filter.next] at h
  | succ f ih =>
    intro f' s r hle h
    obtain ⟨g, rfl⟩ : ∃ g, f' = g + 1 := ⟨f' - 1, by omega⟩
    have hfg : f ≤ g := by omega
    simp only [Filter.next] at h ⊢
    cases hu : up f s with
    | none => simp [hu] at h
    | some v =>
      rw [hup f g s v hfg hu]
      rw [hu] at h
      obtain ⟨o, s'⟩ := v
      cases o with
      | none => exact h
      | some n =>
        simp only at h ⊢
        by_cases hp : p n = true
        · simpa [hp] using h
        · simp only [hp, Bool.false_eq_true, if_false] at h ⊢
          exact ih g s' r hfg h

theorem Limit_next_mono {σ : Type} {up : iterator σ T} (hup : FuelMono up) (maxSize : Int) :
    FuelMono (Limit.next up maxSize) := by
  intro f f' st r hle h
  simp only [Limit.next] at h ⊢
  by_cases hc : st.1 = maxSize
  · simpa [hc] using h
  · simp only [hc, if_false] at h ⊢
    cases hu : up f st.2 with
    | none => simp [hu] at h
    | some v =>
      rw [hup f f' st.2 v hle hu]
      rw [hu] at h
      exact h

theorem Distinct_next_mono {σ : Type} [DecidableEq T] {up : iterator σ T} (hup : FuelMono up) :
    FuelMono (Distinct.next up) := by
  intro f
  induction f with
  | zero => intro f' s r _ h; simp [Distinct.next] at h
  | succ f ih =>
    intro f' st r hle h
    obtain ⟨g, rfl⟩ : ∃ g, f' = g + 1 := ⟨f' - 1, by omega⟩
    have hfg : f ≤ g := by omega
    simp only [Distinct.next] at h ⊢
    cases hu : up f st.2 with
    | none => simp [hu] at h
    | some v =>
      rw [hup f g st.2 v hfg hu]
      rw [hu] at h
      obtain ⟨o, s'⟩ := v
      cases o with
      | none => exact h
      | some n =>
        simp only at h ⊢
        by_cases hm : n ∈ st.1
        · simp only [hm, if_true] at h ⊢
          exact ih g (st.1, s') r hfg h
        · simpa [hm] using h

theorem drain_mono {σ : Type} {it : iterator σ T} (hit : FuelMono it) :
    ∀ f f' s r, f ≤ f' → drain it f s = some r → drain it f' s = some r := by
  intro f
  induction f with
  | zero => intro f' s r _ h; simp [drain] at h
  | succ f ih =>
    intro f' s r hle h
    obtain ⟨g, rfl⟩ : ∃ g, f' = g + 1 := ⟨f' - 1, by omega⟩
    have hfg : f ≤ g := by omega
    simp only [drain] at h ⊢
    cases hu : it f s with
    | none => simp [hu] at h
    | some v =>
      rw [hit f g s v hfg hu]
      rw [hu] at h
      obtain ⟨o, s'⟩ := v
      cases o with
      | none => exact h
      | some n =>
        simp only at h ⊢
        cases hd : drain it f s' with
        | none => simp [hd] at h
        | some w =>
          rw [ih g s' w hfg hd]
          rw [hd] at h
          exact h

/-- An iterator that yields `S` and terminates is drained, with enough fuel,
into `S`. -/
theorem drain_of_yields {σ : Type} {it : iterator σ T} (hit : FuelMono it) {s s' : σ}
    {S : List T} (h : Yields it s S s') : ∃ F, ∀ fuel, F ≤ fuel → drain it fuel s = some (S, s') := by
  induction h with
  | @done f s s' h0 =>
    refine ⟨f + 1, fun fuel hle => ?_⟩
    obtain ⟨g, rfl⟩ : ∃ g, fuel = g + 1 := ⟨fuel - 1, by omega⟩
    simp only [drain]
    rw [hit f g s _ (by omega) h0]
  | @more f s s1 s' x xs h0 _ ih =>
    obtain ⟨F, hF⟩ := ih
    refine ⟨max f F + 1, fun fuel hle => ?_⟩
    obtain ⟨g, rfl⟩ : ∃ g, fuel = g + 1 := ⟨fuel - 1, by omega⟩
    simp only [drain]
    rw [hit f g s _ (by omega) h0]
    simp only
    rw [hF g (by omega)]

/-- Conversely, what `drain` returns is what the iterator yields. -/
theorem yields_of_drain {σ : Type} {it : iterator σ T} :
    ∀ (fuel : Nat) (s s' : σ) (S : List T), drain it fuel s = some (S, s') → Yields it s S s' := by
  intro fuel
  induction fuel with
  | zero => intro s s' S h; simp [drain] at h
  | succ f ih =>
    intro s s' S h
    simp only [drain] at h
    cases hu : it f s with
    | none => simp [hu] at h
    | some v =>
      rw [hu] at h
      obtain ⟨o, s1⟩ := v
      cases o with
      | none =>
        simp only [Option.some.injEq, Prod.mk.injEq] at h
        obtain ⟨rfl, rfl⟩ := h
        exact Yields.done hu
      | some n =>
        simp only at h
        cases hd : drain it f s1 with
        | none => simp [hd] at h
        | some w =>
          rw [hd] at h
          obtain ⟨res, s2⟩ := w
          simp only [Option.some.injEq, Prod.mk.injEq] at h
          obtain ⟨rfl, rfl⟩ := h
          exact Yields.more hu (ih s1 s2 res hd)

/-! ## What each stage yields over an upstream that yields `S` -/

/-- If every result of the first invocation in state `s1` is also a result of
an invocation in state `s`, then what is yielded from `s1` is yielded from `s`. -/
theorem Yields_of_first {σ : Type} {it : iterator σ T} {s1 s s' : σ} {L : List T}
    (h : Yields it s1 L s') (hstep : ∀ g r, it g s1 = some r → ∃ g', it g' s = some r) :
    Yields it s L s' := by
  cases h with
  | done h1 =>
    obtain ⟨g', hg⟩ := hstep _ _ h1
    exact Yields.done hg
  | more h1 h2 =>
    obtain ⟨g', hg⟩ := hstep _ _ h1
    exact Yields.more hg h2

theorem Map_yields {σ : Type} {up : iterator σ IT} (mapper : IT → OT) {s s' : σ} {S : List IT}
    (h : Yields up s S s') : Yields (Map.next up mapper) s (S.map mapper) s' := by
  induction h with
  | @done f s s' h0 =>
    exact Yields.done (f := f) (by simp [Map.next, h0])
  | @more f s s1 s' x xs h0 _ ih =>
    exact Yields.more (f := f) (by simp [Map.next, h0]) ih

/-- One turn of the loop of `Filter` over a rejected element. -/
theorem Filter_next_skip {σ : Type} {up : iterator σ T} (hup : FuelMono up) {p : T → Bool}
    {f g : Nat} {s s1 : σ} {x : T} {r : Option T × σ}
    (h0 : up f s = some (some x, s1)) (hx : p x = false)
    (h1 : Filter.next up p g s1 = some r) : Filter.next up p (max f g + 1) s = some r := by
  simp only [Filter.next]
  rw [hup f (max f g) s _ (le_max_left f g) h0]
  simp only [hx, Bool.false_eq_true, if_false]
  exact Filter_next_mono hup p g (max f g) s1 r (le_max_right f g) h1

theorem Filter_yields {σ : Type} {up : iterator σ T} (hup : FuelMono up) (p : T → Bool)
    {s s' : σ} {S : List T} (h : Yields up s S s') :
    Yields (Filter.next up p) s (S.filter p) s' := by
  induction h with
  | @done f s s' h0 =>
    exact Yields.done (f := f + 1) (by simp [Filter.next, h0])
  | @more f s s1 s' x xs h0 _ ih =>
    by_cases hx : p x = true
    · rw [List.filter_cons_of_pos hx]
      exact Yields.more (f := f + 1) (by simp [Filter.next, h0, hx]) ih
    · have hx' : p x = false := by simpa using hx
      rw [List.filter_cons_of_neg hx]
      exact Yields_of_first ih (fun g r h1 => ⟨_, Filter_next_skip hup h0 hx' h1⟩)

/-- One turn of the loop of `Distinct` over an element already seen. -/
theorem Distinct_next_skip {σ : Type} [DecidableEq T] {up : iterator σ T} (hup : FuelMono up)
    {f g : Nat} {s s1 : σ} {seen : List T} {x : T} {r : Option T × (List T × σ)}
    (h0 : up f s = some (some x, s1)) (hx : x ∈ seen)
    (h1 : Distinct.next up g (seen, s1) = some r) :
    Distinct.next up (max f g + 1) (seen, s) = some r := by
  simp only [Distinct.next]
  rw [hup f (max f g) s _ (le_max_left f g) h0]
  simp only [hx, if_true]
  exact Distinct_next_mono hup g (max f g) (seen, s1) r (le_max_right f g) h1

theorem Distinct_yields {σ : Type} [DecidableEq T] {up : iterator σ T} (hup : FuelMono up)
    {s s' : σ} {S : List T} (h : Yields up s S s') (seen : List T) :
    ∃ seen', Yields (Distinct.next up) (seen, s) (firstOccurrences seen S) (seen', s') := by
  induction h generalizing seen with
  | @done f s s' h0 =>
    exact ⟨seen, Yields.done (f := f + 1) (by simp [Distinct.next, h0])⟩
  | @more f s s1 s' x xs h0 _ ih =>
    by_cases hx : x ∈ seen
    · obtain ⟨seen', h'⟩ := ih seen
      refine ⟨seen', ?_⟩
      simp only [firstOccurrences, hx, if_true]
      exact Yields_of_first h' (fun g r h1 => ⟨_, Distinct_next_skip hup h0 hx h1⟩)
    · obtain ⟨seen', h'⟩ := ih (x :: seen)
      refine ⟨seen', ?_⟩
      simp only [firstOccurrences, hx, if_false]
      exact Yields.more (f := f + 1) (by simp [Distinct.next, h0, hx]) h'

theorem Limit_yields {σ : Type} {up : iterator σ T} (maxSize : Int)
    {s s' : σ} {S : List T} (h : Yields up s S s') (count : Int) (hc : count ≤ maxSize) :
    ∃ s'', Yields (Limit.next up maxSize) (count, s) (S.take (maxSize - count).toNat)
      (maxSize, s'') := by
  induction h generalizing count with
  | @done f s s' h0 =>
    by_cases hcm : count = maxSize
    · exact ⟨s, by
        rw [List.take_nil]
        exact Yields.done (f := f) (by simp [Limit.next, hcm])⟩
    · exact ⟨s', by
        rw [List.take_nil]
        exact Yields.done (f := f) (by simp [Limit.next, hcm, h0])⟩
  | @more f s s1 s' x xs h0 _ ih =>
    by_cases hcm : count = maxSize
    · exact ⟨s, by
        have : (maxSize - count).toNat = 0 := by subst hcm; simp
        rw [this, List.take_zero]
        exact Yields.done (f := f) (by simp [Limit.next, hcm])⟩
    · obtain ⟨s'', h'⟩ := ih (count + 1) (by omega)
      refine ⟨s'', ?_⟩
      have : (maxSize - count).toNat = (maxSize - (count + 1)).toNat + 1 := by omega
      rw [this, List.take_succ_cons]
      exact Yields.more (f := f) (by simp [Limit.next, hcm, h0]) h'

/-! ## Pipelines: what a stage produces over a pipeline that produces `S` -/

/-- A pipeline that produces `S` is materialised by `ToSlice` into `S`. -/
theorem Produces_toSlice {st : iterableStream T} {S : List T} (h : Produces st S) :
    ∃ F, ∀ fuel, F ≤ fuel → st.ToSlice fuel = some S := by
  obtain ⟨hmono, s0, s', ⟨F0, hF0⟩, hy⟩ := h
  obtain ⟨F1, hF1⟩ := drain_of_yields hmono hy
  refine ⟨max F0 F1, fun fuel hle => ?_⟩
  simp only [iterableStream.ToSlice]
  rw [hF0 fuel (by omega)]
  simp only
  rw [hF1 fuel (by omega)]
  rfl

theorem Sorted_next_yields (items : List T) :
    Yields (Sorted.next (T := T)) items items [] := by
  induction items with
  | nil => exact Yields.done (f := 0) rfl
  | cons x xs ih => exact Yields.more (f := 0) rfl ih

theorem OfSlice_produces (S : List T) : Produces (OfSlice S) S := by
  refine ⟨fun f f' s r _ h => h, S, [], ⟨0, fun fuel _ => rfl⟩, ?_⟩
  induction S with
  | nil => exact Yields.done (f := 0) rfl
  | cons x xs ih => exact Yields.more (f := 0) rfl ih

theorem Map_produces {st : iterableStream IT} {S : List IT} (mapper : IT → OT)
    (h : Produces st S) : Produces (Map st mapper) (S.map mapper) := by
  obtain ⟨hmono, s0, s', hs, hy⟩ := h
  exact ⟨Map_next_mono hmono mapper, s0, s', hs, Map_yields mapper hy⟩

theorem Filter_produces {st : iterableStream T} {S : List T} (p : T → Bool)
    (h : Produces st S) : Produces (st.Filter p) (S.filter p) := by
  obtain ⟨hmono, s0, s', hs, hy⟩ := h
  exact ⟨Filter_next_mono hmono p, s0, s', hs, Filter_yields hmono p hy⟩

theorem Limit_produces {st : iterableStream T} {S : List T} (maxSize : Int) (hn : 0 ≤ maxSize)
    (h : Produces st S) : Produces (st.Limit maxSize) (S.take maxSize.toNat) := by
  obtain ⟨hmono, s0, s', ⟨F, hF⟩, hy⟩ := h
  obtain ⟨s'', hy'⟩ := Limit_yields maxSize hy 0 hn
  refine ⟨Limit_next_mono hmono maxSize, (0, s0), (maxSize, s''), ⟨F, fun fuel hle => ?_⟩, ?_⟩
  · show (st.iterator fuel).map (fun s => ((0 : Int), s)) = some (0, s0)
    rw [hF fuel hle]
    rfl
  · simpa using hy'

theorem Distinct_produces [DecidableEq T] {st : iterableStream T} {S : List T}
    (h : Produces st S) : Produces (Distinct st) (firstOccurrences [] S) := by
  obtain ⟨hmono, s0, s', ⟨F, hF⟩, hy⟩ := h
  obtain ⟨seen', hy'⟩ := Distinct_yields hmono hy []
  refine ⟨Distinct_next_mono hmono, ([], s0), (seen', s'), ⟨F, fun fuel hle => ?_⟩, hy'⟩
  show (st.iterator fuel).map (fun s => (([] : List T), s)) = some ([], s0)
  rw [hF fuel hle]
  rfl

theorem Sorted_produces (SortSlice : List T → (T → T → Int) → List T) {st : iterableStream T}
    {S : List T} (c : T → T → Int) (h : Produces st S) (out : iterableStream T)
    (hout : st.Sorted SortSlice c = Except.ok out) : Produces out (SortSlice S c) := by
  obtain ⟨F, hF⟩ := Produces_toSlice h
  simp only [iterableStream.Sorted] at hout
  cases ha : assertFinite st with
  | error e => rw [ha] at hout; simp at hout
  | ok u =>
    rw [ha] at hout
    simp only [Except.ok.injEq] at hout
    subst hout
    refine ⟨fun f f' s r _ h => h, SortSlice S c, [], ⟨F, fun fuel hle => ?_⟩, Sorted_next_yields _⟩
    show (st.ToSlice fuel).map (fun items => SortSlice items c) = some (SortSlice S c)
    rw [hF fuel hle]
    rfl

/-! ## First occurrences -/

theorem mem_firstOccurrences [DecidableEq T] (S : List T) :
    ∀ (seen : List T) (x : T), x ∈ firstOccurrences seen S ↔ x ∈ S ∧ x ∉ seen := by
  induction S with
  | nil => intro seen x; simp [firstOccurrences]
  | cons y ys ih =>
    intro seen x
    by_cases hy : y ∈ seen
    · simp only [firstOccurrences, hy, if_true, ih, List.mem_cons]
      constructor
      · rintro ⟨h1, h2⟩
        exact ⟨Or.inr h1, h2⟩
      · rintro ⟨h1 | h1, h2⟩
        · subst h1; exact absurd hy h2
        · exact ⟨h1, h2⟩
    · simp only [firstOccurrences, hy, if_false, List.mem_cons, ih]
      constructor
      · rintro (h | ⟨h1, h2⟩)
        · subst h; exact ⟨Or.inl rfl, hy⟩
        · exact ⟨Or.inr h1, fun h => h2 (Or.inr h)⟩
      · rintro ⟨h1 | h1, h2⟩
        · exact Or.inl h1
        · by_cases hxy : x = y
          · exact Or.inl hxy
          · exact Or.inr ⟨h1, fun h => h.elim hxy h2⟩

theorem nodup_firstOccurrences [DecidableEq T] (S : List T) :
    ∀ seen : List T, (firstOccurrences seen S).Nodup := by
  induction S with
  | nil => intro seen; simp [firstOccurrences]
  | cons y ys ih =>
    intro seen
    by_cases hy : y ∈ seen
    · simp only [firstOccurrences, hy, if_true]
      exact ih seen
    · simp only [firstOccurrences, hy, if_false, List.nodup_cons]
      refine ⟨?_, ih _⟩
      rw [mem_firstOccurrences]
      simp

theorem sublist_firstOccurrences [DecidableEq T] (S : List T) :
    ∀ seen : List T, (firstOccurrences seen S).Sublist S := by
  induction S with
  | nil => intro seen; simp [firstOccurrences]
  | cons y ys ih =>
    intro seen
    by_cases hy : y ∈ seen
    · simp only [firstOccurrences, hy, if_true]
      exact (ih seen).cons y
    · simp only [firstOccurrences, hy, if_false]
      exact (ih _).cons₂ y

/-- The elements kept stand in the order of their first occurrences. -/
theorem indexOf_firstOccurrences [DecidableEq T] (S : List T) :
    ∀ (seen : List T) (a b : T), a ∈ S → b ∈ S → a ∉ seen → b ∉ seen →
      ((firstOccurrences seen S).indexOf a < (firstOccurrences seen S).indexOf b ↔
        S.indexOf a < S.indexOf b) := by
  induction S with
  | nil => intro seen a b ha; simp at ha
  | cons y ys ih =>
    intro seen a b ha hb has hbs
    by_cases hy : y ∈ seen
    · have hay : a ≠ y := fun h => has (h ▸ hy)
      have hby : b ≠ y := fun h => hbs (h ▸ hy)
      have ha' : a ∈ ys := (List.mem_cons.mp ha).resolve_left hay
      have hb' : b ∈ ys := (List.mem_cons.mp hb).resolve_left hby
      simp only [firstOccurrences, hy, if_true]
      rw [List.indexOf_cons_ne _ (Ne.symm hay), List.indexOf_cons_ne _ (Ne.symm hby)]
      rw [ih seen a b ha' hb' has hbs]
      omega
    · simp only [firstOccurrences, hy, if_false]
      by_cases hay : a = y
      · subst hay
        by_cases hby : b = a
        · subst hby; simp
        · rw [List.indexOf_cons_eq _ rfl, List.indexOf_cons_eq _ rfl,
            List.indexOf_cons_ne _ (Ne.symm hby), List.indexOf_cons_ne _ (Ne.symm hby)]
          omega
      · have ha' : a ∈ ys := (List.mem_cons.mp ha).resolve_left hay
        by_cases hby : b = y
        · subst hby
          rw [List.indexOf_cons_eq _ rfl, List.indexOf_cons_eq _ rfl]
          omega
        · have hb' : b ∈ ys := (List.mem_cons.mp hb).resolve_left hby
          rw [List.indexOf_cons_ne _ (Ne.symm hay), List.indexOf_cons_ne _ (Ne.symm hby),
            List.indexOf_cons_ne _ (Ne.symm hay), List.indexOf_cons_ne _ (Ne.symm hby)]
          rw [Nat.succ_lt_succ_iff, Nat.succ_lt_succ_iff]
          exact ih (y :: seen) a b ha' hb' (by simp [hay, has]) (by simp [hby, hbs])

/-! ## The comparator `ascending` and the sort used where a concrete one is needed -/

theorem ascending_le_iff (a b : Int) : ascending a b ≤ 0 ↔ a ≤ b := by
  unfold ascending
  by_cases h1 : a = b
  · simp [h1]
  · by_cases h2 : a < b
    · simp [h1, h2, le_of_lt h2]
    · simp only [h1, h2, if_false]
      constructor
      · intro h; omega
      · intro h; omega

theorem insertionSortSlice_ascending (xs : List Int) :
    (insertionSortSlice xs ascending).Perm xs ∧
      (insertionSortSlice xs ascending).Pairwise (fun a b => ascending a b ≤ 0) := by
  have htotal : IsTotal Int (fun a b => ascending a b ≤ 0) :=
    ⟨fun a b => by
      show ascending a b ≤ 0 ∨ ascending b a ≤ 0
      rw [ascending_le_iff, ascending_le_iff]; exact le_total a b⟩
  have htrans : IsTrans Int (fun a b => ascending a b ≤ 0) :=
    ⟨fun a b c hab hbc => by
      rw [ascending_le_iff] at hab hbc ⊢
      exact le_trans hab hbc⟩
  exact ⟨List.perm_insertionSort _ xs, List.sorted_insertionSort _ xs⟩

/-- A list that is a permutation of `[3, 1, 2]` and non-decreasing under
`ascending` is `[1, 2, 3]`. -/
theorem sorted_perm_312 (R : List Int) (hp : R.Perm [3, 1, 2])
    (hs : R.Pairwise (fun a b => ascending a b ≤ 0)) : R = [1, 2, 3] := by
  have hs' : R.Sorted (· ≤ ·) := hs.imp (fun {a b} h => (ascending_le_iff a b).mp h)
  have h123 : ([1, 2, 3] : List Int).Sorted (· ≤ ·) := by decide
  have hp' : R.Perm [1, 2, 3] := hp.trans (by decide)
  exact List.eq_of_perm_of_sorted hp' hs' h123

/-- Over a pipeline tagged finite `Sorted` is constructed. -/
theorem Sorted_ok_of_finite (SortSlice : List T → (T → T → Int) → List T)
    (s : iterableStream T) (c : T → T → Int) (h : s.isInfinite = false) :
    ∃ out, s.Sorted SortSlice c = Except.ok out := by
  simp [iterableStream.Sorted, assertFinite, h]

/-! ## The claims -/

/-- C1: `Sorted` over a pipeline tagged infinite fails at construction: for
every stream `s` (whatever its `supply` and its iterator do, also when they
never return) and every comparator, `s.Sorted` raises the fatal condition of
`assertFinite` and returns no stream, so no iterator can be obtained from it
and nothing is pulled; over a pipeline tagged finite the construction
succeeds and returns a stream. -/
theorem Sorted_fails_at_construction (SortSlice : List T → (T → T → Int) → List T)
    (s : iterableStream T) (c : T → T → Int) :
    (s.isInfinite = true →
        ∃ e, assertFinite s = Except.error e ∧ s.Sorted SortSlice c = Except.error e) ∧
      (s.isInfinite = false → ∃ out, s.Sorted SortSlice c = Except.ok out) := by
  constructor
  · intro h
    refine ⟨"operation not allowed on infinite streams", ?_, ?_⟩
    · simp [assertFinite, h]
    · simp [iterableStream.Sorted, assertFinite, h]
  · exact Sorted_ok_of_finite SortSlice s c

/-- The statement of C1 at the infinite counting source and at the finite
source `[3, 1, 2]`. -/
theorem Sorted_fails_at_construction_witness :
    (∃ e, assertFinite (Iterate (0 : Int) (· + 1)) = Except.error e ∧
        (Iterate (0 : Int) (· + 1)).Sorted insertionSortSlice ascending = Except.error e) ∧
      (∃ out, (OfSlice [(3 : Int), 1, 2]).Sorted insertionSortSlice ascending = Except.ok out) :=
  ⟨(Sorted_fails_at_construction insertionSortSlice (Iterate (0 : Int) (· + 1)) ascending).1 rfl,
    (Sorted_fails_at_construction insertionSortSlice (OfSlice [(3 : Int), 1, 2]) ascending).2 rfl⟩

/-- The stream returned by `Distinct` is tagged finite whatever the tag of its
input: the struct literal of `Distinct` leaves `infinite` unset. -/
theorem Distinct_isInfinite [DecidableEq T] (s : iterableStream T) :
    (Distinct s).isInfinite = false := rfl

/-- C2 (the code at the failing input): the counting source `0, 1, 2, ...` is
tagged infinite, `Distinct` over it is tagged finite, and `Sorted` is then
accepted at construction over it. -/
theorem Distinct_drops_infinite_tag :
    (Iterate (0 : Int) (· + 1)).isInfinite = true ∧
      (Distinct (Iterate (0 : Int) (· + 1))).isInfinite = false ∧
      ∃ out, (Distinct (Iterate (0 : Int) (· + 1))).Sorted insertionSortSlice ascending
        = Except.ok out :=
  ⟨rfl, rfl, _, rfl⟩

/-! ## `Limit` at its bound -/

/-- At `count = maxSize` an invocation of the `Limit` iterator returns
termination and leaves the state as it is, the upstream iterator included. -/
theorem Limit_next_at_max {σ : Type} (up : iterator σ T) (maxSize : Int) (fuel : Nat) (s : σ) :
    Limit.next up maxSize fuel (maxSize, s) = some (none, (maxSize, s)) := by
  simp [Limit.next]

/-- After an invocation of the `Limit` iterator that returned termination,
`count` is `maxSize`. -/
theorem Limit_next_none_count {σ : Type} (up : iterator σ T) (maxSize : Int) (fuel : Nat)
    (st st' : Int × σ) (h : Limit.next up maxSize fuel st = some (none, st')) :
    st'.1 = maxSize := by
  simp only [Limit.next] at h
  by_cases hc : st.1 = maxSize
  · simp only [hc, if_true, Option.some.injEq, Prod.mk.injEq, true_and] at h
    rw [← h]; exact hc
  · simp only [hc, if_false] at h
    cases hu : up fuel st.2 with
    | none => simp [hu] at h
    | some v =>
      rw [hu] at h
      obtain ⟨o, s'⟩ := v
      cases o with
      | none =>
        simp only [Option.some.injEq, Prod.mk.injEq, true_and] at h
        rw [← h]
      | some n => simp at h

/-- From `count = maxSize` on, every invocation returns termination and the
state stays as it is. -/
theorem invocations_Limit_at_max {σ : Type} (up : iterator σ T) (maxSize : Int) (fuel : Nat)
    (s : σ) (k : Nat) :
    invocations (Limit.next up maxSize) fuel k (maxSize, s)
      = some (List.replicate k none, (maxSize, s)) := by
  induction k with
  | zero => rfl
  | succ k ih =>
    simp only [invocations, Limit_next_at_max, ih, List.replicate_succ]

/-! ## Accuracy of the finiteness tag -/

theorem Yields_returns {σ : Type} {it : iterator σ T} {s s' : σ} {S : List T}
    (h : Yields it s S s') : ∃ f r, it f s = some r := by
  cases h with
  | done h0 => exact ⟨_, _, h0⟩
  | more h0 _ => exact ⟨_, _, h0⟩

theorem Sound_source {σ : Type} (infinite : Bool) (init : σ) (step : σ → Option T × σ)
    (h : TagAccurate (Source σ infinite init step)) : Sound (Source σ infinite init step) := by
  refine ⟨fun f f' s r _ h => h,
    fun s => infinite = false → ∃ S s', Yields (Source σ infinite init step).next s S s',
    ⟨init, ?_, 0, fun _ _ => rfl⟩, fun s _ => ⟨0, step s, rfl⟩, ?_, fun hfin s hs => hs hfin⟩
  · intro hfin
    obtain ⟨fuel, xs, hx⟩ := h hfin
    simp only [iterableStream.ToSlice, iterableStream.iterator, Source] at hx
    cases hd : drain (fun (_ : Nat) (s : σ) => some (step s)) fuel init with
    | none => simp [hd] at hx
    | some w =>
      obtain ⟨S, s'⟩ := w
      exact ⟨S, s', yields_of_drain fuel init s' S hd⟩
  · intro s f x s' hs hstep hfin
    obtain ⟨S, s1, hy⟩ := hs hfin
    have hstep' : step s = (some x, s') := by
      simpa [Source] using hstep
    cases hy with
    | @done g _ _ h0 =>
      have : step s = (none, s1) := by simpa [Source] using h0
      rw [hstep'] at this
      simp at this
    | @more g _ s2 _ y ys h0 h1 =>
      have : step s = (some y, s2) := by simpa [Source] using h0
      rw [hstep'] at this
      simp only [Prod.mk.injEq, Option.some.injEq] at this
      obtain ⟨_, rfl⟩ := this
      exact ⟨ys, s1, h1⟩

theorem Sound_Map {st : iterableStream IT} (mapper : IT → OT) (h : Sound st) :
    Sound (Map st mapper) := by
  obtain ⟨hmono, I, hinit, hret, hclosed, hfin⟩ := h
  refine ⟨Map_next_mono hmono mapper, I, hinit, ?_, ?_, ?_⟩
  · intro s hs
    obtain ⟨f, r, hr⟩ := hret s hs
    obtain ⟨o, s'⟩ := r
    cases o with
    | none => exact ⟨f, (none, s'), by simp [Map, Map.next, hr]⟩
    | some n => exact ⟨f, (some (mapper n), s'), by simp [Map, Map.next, hr]⟩
  · intro s f y s' hs hstep
    simp only [Map, Map.next] at hstep
    cases hu : st.next f s with
    | none => simp [hu] at hstep
    | some v =>
      rw [hu] at hstep
      obtain ⟨o, s1⟩ := v
      cases o with
      | none => simp at hstep
      | some n =>
        simp only [Option.some.injEq, Prod.mk.injEq] at hstep
        obtain ⟨_, rfl⟩ := hstep
        exact hclosed s f n s1 hs hu
  · intro hinf s hs
    obtain ⟨S, s', hy⟩ := hfin hinf s hs
    exact ⟨S.map mapper, s', Map_yields mapper hy⟩

/-- An invocation of the `Filter` iterator that yields leaves upstream in a
state reached through invocations that yielded. -/
theorem Filter_next_closed {σ : Type} {up : iterator σ T} (p : T → Bool) (I : σ → Prop)
    (hclosed : ∀ s f x s', I s → up f s = some (some x, s') → I s') :
    ∀ (f : Nat) (s : σ) (x : T) (s' : σ), I s →
      Filter.next up p f s = some (some x, s') → I s' := by
  intro f
  induction f with
  | zero => intro s x s' _ h; simp [Filter.next] at h
  | succ f ih =>
    intro s x s' hs h
    simp only [Filter.next] at h
    cases hu : up f s with
    | none => simp [hu] at h
    | some v =>
      rw [hu] at h
      obtain ⟨o, s1⟩ := v
      cases o with
      | none => simp at h
      | some n =>
        have hs1 : I s1 := hclosed s f n s1 hs hu
        simp only at h
        by_cases hp : p n = true
        · simp only [hp, if_true, Option.some.injEq, Prod.mk.injEq] at h
          obtain ⟨_, rfl⟩ := h
          exact hs1
        · simp only [hp, Bool.false_eq_true, if_false] at h
          exact ih s1 x s' hs1 h

theorem Sound_Filter {st : iterableStream T} (p : T → Bool) (h : Sound st)
    (hfinite : st.isInfinite = false) : Sound (st.Filter p) := by
  obtain ⟨hmono, I, hinit, _, hclosed, hfin⟩ := h
  refine ⟨Filter_next_mono hmono p, I, hinit, ?_, ?_, ?_⟩
  · intro s hs
    obtain ⟨S, s', hy⟩ := hfin hfinite s hs
    exact Yields_returns (Filter_yields hmono p hy)
  · intro s f x s' hs hstep
    exact Filter_next_closed p I hclosed f s x s' hs hstep
  · intro _ s hs
    obtain ⟨S, s', hy⟩ := hfin hfinite s hs
    exact ⟨S.filter p, s', Filter_yields hmono p hy⟩

/-- An invocation of the `Distinct` iterator that yields leaves upstream in a
state reached through invocations that yielded. -/
theorem Distinct_next_closed {σ : Type} [DecidableEq T] {up : iterator σ T} (I : σ → Prop)
    (hclosed : ∀ s f x s', I s → up f s = some (some x, s') → I s') :
    ∀ (f : Nat) (st : List T × σ) (x : T) (st' : List T × σ), I st.2 →
      Distinct.next up f st = some (some x, st') → I st'.2 := by
  intro f
  induction f with
  | zero => intro st x st' _ h; simp [Distinct.next] at h
  | succ f ih =>
    intro st x st' hs h
    simp only [Distinct.next] at h
    cases hu : up f st.2 with
    | none => simp [hu] at h
    | some v =>
      rw [hu] at h
      obtain ⟨o, s1⟩ := v
      cases o with
      | none => simp at h
      | some n =>
        have hs1 : I s1 := hclosed st.2 f n s1 hs hu
        simp only at h
        by_cases hm : n ∈ st.1
        · simp only [hm, if_true] at h
          exact ih (st.1, s1) x st' hs1 h
        · simp only [hm, if_false, Option.some.injEq, Prod.mk.injEq] at h
          obtain ⟨_, rfl⟩ := h
          exact hs1

theorem Sound_Distinct [DecidableEq T] {st : iterableStream T} (h : Sound st)
    (hfinite : st.isInfinite = false) : Sound (Distinct st) := by
  obtain ⟨hmono, I, ⟨s0, hs0, F, hF⟩, _, hclosed, hfin⟩ := h
  refine ⟨Distinct_next_mono hmono, fun x => I x.2, ⟨([], s0), hs0, F, fun fuel hle => ?_⟩,
    ?_, ?_, ?_⟩
  · show (st.iterator fuel).map (fun s => (([] : List T), s)) = some ([], s0)
    rw [hF fuel hle]
    rfl
  · intro s hs
    obtain ⟨S, s', hy⟩ := hfin hfinite s.2 hs
    obtain ⟨seen', hy'⟩ := Distinct_yields hmono hy s.1
    exact Yields_returns hy'
  · intro s f x s' hs hstep
    exact Distinct_next_closed I hclosed f s x s' hs hstep
  · intro _ s hs
    obtain ⟨S, s', hy⟩ := hfin hfinite s.2 hs
    obtain ⟨seen', hy'⟩ := Distinct_yields hmono hy s.1
    exact ⟨_, _, hy'⟩

/-- Over an upstream every invocation of which returns, the `Limit` iterator
with `j` elements to go yields at most `j` elements and terminates. -/
theorem Limit_yields_of_returns {σ : Type} {up : iterator σ T} (maxSize : Int) (I : σ → Prop)
    (hret : ∀ s, I s → ∃ f r, up f s = some r)
    (hclosed : ∀ s f x s', I s → up f s = some (some x, s') → I s') :
    ∀ (j : Nat) (count : Int) (s : σ), count + j = maxSize → I s →
      ∃ S st', Yields (Limit.next up maxSize) (count, s) S st' := by
  intro j
  induction j with
  | zero =>
    intro count s hc _
    have : count = maxSize := by omega
    subst this
    exact ⟨[], _, Yields.done (f := 0) (Limit_next_at_max up count 0 s)⟩
  | succ j ih =>
    intro count s hc hs
    have hne : count ≠ maxSize := by omega
    obtain ⟨f, r, hr⟩ := hret s hs
    obtain ⟨o, s1⟩ := r
    cases o with
    | none =>
      exact ⟨[], (maxSize, s1), Yields.done (f := f) (by simp [Limit.next, hne, hr])⟩
    | some n =>
      obtain ⟨S, st', hy⟩ := ih (count + 1) s1 (by push_cast at hc ⊢; omega)
        (hclosed s f n s1 hs hr)
      exact ⟨n :: S, st', Yields.more (f := f) (by simp [Limit.next, hne, hr]) hy⟩

theorem Sound_Limit {st : iterableStream T} (maxSize : Int) (hn : 0 ≤ maxSize)
    (h : Sound st) : Sound (st.Limit maxSize) := by
  obtain ⟨hmono, I, ⟨s0, hs0, F, hF⟩, hret, hclosed, _⟩ := h
  refine ⟨Limit_next_mono hmono maxSize, fun x => x.1 ≤ maxSize ∧ I x.2,
    ⟨((0 : Int), s0), ⟨hn, hs0⟩, F, fun fuel hle => ?_⟩, ?_, ?_, ?_⟩
  · show (st.iterator fuel).map (fun s => ((0 : Int), s)) = some (0, s0)
    rw [hF fuel hle]
    rfl
  · intro s hs
    obtain ⟨S, st', hy⟩ := Limit_yields_of_returns maxSize I hret hclosed
      (maxSize - s.1).toNat s.1 s.2 (by have := hs.1; omega) hs.2
    exact Yields_returns hy
  · intro s f x s' hs hstep
    simp only [iterableStream.Limit, Limit.next] at hstep
    by_cases hc : s.1 = maxSize
    · simp [hc] at hstep
    · simp only [hc, if_false] at hstep
      cases hu : st.next f s.2 with
      | none => simp [hu] at hstep
      | some v =>
        rw [hu] at hstep
        obtain ⟨o, s1⟩ := v
        cases o with
        | none => simp at hstep
        | some n =>
          simp only [Option.some.injEq, Prod.mk.injEq] at hstep
          obtain ⟨_, rfl⟩ := hstep
          refine ⟨?_, hclosed s.2 f n s1 hs.2 hu⟩
          have := hs.1
          show s.1 + 1 ≤ maxSize
          omega
  · intro _ s hs
    exact Limit_yields_of_returns maxSize I hret hclosed
      (maxSize - s.1).toNat s.1 s.2 (by have := hs.1; omega) hs.2

theorem Sound_of_Built {st : iterableStream T} (h : Built st) : Sound st := by
  induction h with
  | source infinite init step hacc => exact Sound_source infinite init step hacc
  | map st mapper _ ih => exact Sound_Map mapper ih
  | filter st p _ hfin ih => exact Sound_Filter p ih hfin
  | limit st n _ hn ih => exact Sound_Limit n hn ih
  | distinct st _ hfin ih => exact Sound_Distinct ih hfin

theorem Terminates_of_Sound {st : iterableStream T} (h : Sound st)
    (hfinite : st.isInfinite = false) : Terminates st := by
  obtain ⟨hmono, I, ⟨s0, hs0, hF⟩, _, _, hfin⟩ := h
  obtain ⟨S, s', hy⟩ := hfin hfinite s0 hs0
  have hprod : Produces st S := ⟨hmono, s0, s', hF, hy⟩
  obtain ⟨F, hS⟩ := Produces_toSlice hprod
  exact ⟨F, S, hS F (le_refl F)⟩

/-- An invocation of a `Filter` that rejects everything over the counting
source does not return, whatever the fuel. -/
theorem Filter_false_never_returns (fuel : Nat) :
    ∀ s : Int, Filter.next (Iterate.next (fun x : Int => x + 1)) (fun _ => false) fuel s = none := by
  induction fuel with
  | zero => intro s; rfl
  | succ f ih =>
    intro s
    simp only [Filter.next, Iterate.next, Bool.false_eq_true, if_false]
    exact ih (s + 1)

theorem limitOfEmptyFilter_toSlice (fuel : Nat) : limitOfEmptyFilter.ToSlice fuel = none := by
  cases fuel with
  | zero => rfl
  | succ f =>
    show (drain (Limit.next (Filter.next (Iterate.next (fun x : Int => x + 1)) (fun _ => false)) 1)
      (f + 1) ((0 : Int), (0 : Int))).map Prod.fst = none
    simp [drain, Limit.next, Filter_false_never_returns]

/-- C3 (counterexample): the counting source `0, 1, 2, ...` is tagged infinite,
so its tag is accurate; `Limit(1)` over a `Filter` that rejects everything over
it is tagged finite, `Sorted` is accepted at construction over it, and yet
draining it returns with no fuel at all: its tag is not accurate. -/
theorem tag_inaccurate_Limit_over_Filter :
    TagAccurate (Iterate (0 : Int) (· + 1)) ∧
      limitOfEmptyFilter.isInfinite = false ∧
      (∃ out, limitOfEmptyFilter.Sorted insertionSortSlice ascending = Except.ok out) ∧
      (∀ fuel, limitOfEmptyFilter.ToSlice fuel = none) ∧
      ¬ TagAccurate limitOfEmptyFilter := by
  refine ⟨fun h => by simp [Iterate, iterableStream.isInfinite] at h, rfl,
    Sorted_ok_of_finite _ _ _ rfl, limitOfEmptyFilter_toSlice, ?_⟩
  intro h
  obtain ⟨fuel, xs, hx⟩ := h rfl
  rw [limitOfEmptyFilter_toSlice] at hx
  simp at hx

/-- C3 (amended): for every pipeline built from a source every invocation of
which returns and whose tag is accurate, through `Map` stages, `Limit` stages
with `maxSize ≥ 0`, and `Filter` and `Distinct` stages over finite-tagged
pipelines, the tag is accurate: if the pipeline is tagged finite, draining a
fresh iterator terminates; and whenever `Sorted` is accepted at construction
over it, draining it terminates. -/
theorem tag_accurate_of_Built {st : iterableStream T} (h : Built st) :
    TagAccurate st ∧
      ∀ (SortSlice : List T → (T → T → Int) → List T) (c : T → T → Int) (out : iterableStream T),
        st.Sorted SortSlice c = Except.ok out → Terminates st := by
  have hacc : TagAccurate st := fun hfin => Terminates_of_Sound (Sound_of_Built h) hfin
  refine ⟨hacc, fun SortSlice c out hout => hacc ?_⟩
  cases hinf : st.isInfinite with
  | false => rfl
  | true => simp [iterableStream.Sorted, assertFinite, hinf] at hout

/-- The statement of C3 (amended) at `Limit(3)` over `Map(x * 10)` over the
counting source and at `Distinct` over `Filter(isEven)` over `[1, 2, 3, 4]`. -/
theorem tag_accurate_of_Built_witness :
    (Built ((Map (Source Int true 0 (fun s => (some s, s + 1))) (· * 10)).Limit 3) ∧
        TagAccurate ((Map (Source Int true 0 (fun s => (some s, s + 1))) (· * 10)).Limit 3)) ∧
      (Built (Distinct ((Source (List Int) false [1, 2, 3, 4]
          (fun s => (s.head?, s.tail))).Filter (· % 2 == 0))) ∧
        TagAccurate (Distinct ((Source (List Int) false [1, 2, 3, 4]
          (fun s => (s.head?, s.tail))).Filter (· % 2 == 0)))) :=
  have h1 : Built ((Map (Source Int true 0 (fun s => (some s, s + 1))) (· * 10)).Limit 3) :=
    Built.limit _ 3 (Built.map _ _
      (Built.source true 0 _ (fun h => by simp [Source, iterableStream.isInfinite] at h)))
      (by decide)
  have h2 : Built (Distinct ((Source (List Int) false [1, 2, 3, 4]
      (fun s => (s.head?, s.tail))).Filter (· % 2 == 0))) :=
    Built.distinct _ (Built.filter _ _
      (Built.source false [1, 2, 3, 4] _ (fun _ => ⟨5, [1, 2, 3, 4], by decide⟩)) rfl) rfl
  ⟨⟨h1, (tag_accurate_of_Built h1).1⟩, ⟨h2, (tag_accurate_of_Built h2).1⟩⟩

/-- C4: for every finite sequence `S` and every `n ≥ 0`, draining the iterator
of `Limit(S, n)` returns, with enough fuel, exactly `S.take n`, the first
`min (len S) n` elements of `S` in order. -/
theorem Limit_toSlice_take (S : List T) (n : Int) (hn : 0 ≤ n) :
    (∃ F, ∀ fuel, F ≤ fuel → ((OfSlice S).Limit n).ToSlice fuel = some (S.take n.toNat)) ∧
      (S.take n.toNat).length = min S.length n.toNat := by
  refine ⟨Produces_toSlice (Limit_produces n hn (OfSlice_produces S)), ?_⟩
  rw [List.length_take, Nat.min_comm]

/-- The statement of C4 at `S = [1, 2, 3]`, `n = 2`. -/
theorem Limit_toSlice_take_witness :
    (0 : Int) ≤ 2 ∧
      (∃ F, ∀ fuel, F ≤ fuel →
        ((OfSlice [(1 : Int), 2, 3]).Limit 2).ToSlice fuel = some [1, 2]) ∧
      ([(1 : Int), 2].length = min [(1 : Int), 2, 3].length 2) :=
  ⟨by decide, Limit_toSlice_take [(1 : Int), 2, 3] 2 (by decide)⟩

/-- C5: exhaustion of `Limit` is permanent and leaves upstream alone.  For
every upstream iterator `up` (one that yields again after it signalled
termination too), instrumented with a counter of its invocations, and every
`maxSize`: after an invocation of the `Limit` iterator that returned
`has_value = false`, `count` is `maxSize` and any number `k` of later
invocations all return `has_value = false` and leave the whole state as it is,
the counter of upstream invocations included. -/
theorem Limit_exhaustion_permanent {σ : Type} (up : iterator σ T) (maxSize : Int) (fuel : Nat)
    (st st' : Int × (σ × Nat))
    (h : Limit.next (counted up) maxSize fuel st = some (none, st')) :
    st'.1 = maxSize ∧
      ∀ k fuel', invocations (Limit.next (counted up) maxSize) fuel' k st'
        = some (List.replicate k none, st') := by
  have hc := Limit_next_none_count (counted up) maxSize fuel st st' h
  refine ⟨hc, fun k fuel' => ?_⟩
  obtain ⟨c, s⟩ := st'
  simp only at hc
  subst hc
  exact invocations_Limit_at_max (counted up) c fuel' s k

/-- The statement of C5 at an upstream that yields `7` again after signalling
termination: `Limit(5)` has emitted one element, upstream has been invoked
once and now signals termination on its second invocation. -/
theorem Limit_exhaustion_permanent_witness :
    Limit.next (counted (resurrecting (7 : Int))) 5 0 (1, (true, 1)) = some (none, (5, (false, 2))) ∧
      ((5 : Int), (false, 2)).1 = 5 ∧
      ∀ k fuel', invocations (Limit.next (counted (resurrecting (7 : Int))) 5) fuel' k
        (5, (false, 2)) = some (List.replicate k none, (5, (false, 2))) :=
  ⟨rfl, Limit_exhaustion_permanent (resurrecting (7 : Int)) 5 0 (1, (true, 1)) (5, (false, 2)) rfl⟩

/-- Over an upstream that always yields, the `Limit` iterator at `count`, with
`j` elements to go, yields the next `j` elements on `j` invocations, invokes
upstream `j` times, and returns termination from then on. -/
theorem invocations_Limit_generated {σ : Type} (up : iterator σ T) (gen : σ → T × σ)
    (hup : ∀ fuel s, up fuel s = some (some (gen s).1, (gen s).2)) (maxSize : Int)
    (fuel k : Nat) :
    ∀ (j : Nat) (count : Int) (s : σ) (m : Nat), count + j = maxSize →
      invocations (Limit.next (counted up) maxSize) fuel (j + k) (count, (s, m))
        = some ((generated gen j s).1.map some ++ List.replicate k none,
            (maxSize, ((generated gen j s).2, m + j))) := by
  intro j
  induction j with
  | zero =>
    intro count s m hc
    have : count = maxSize := by omega
    subst this
    simpa [generated] using invocations_Limit_at_max (counted up) count fuel (s, m) k
  | succ j ih =>
    intro count s m hc
    have hne : count ≠ maxSize := by omega
    have hstep : Limit.next (counted up) maxSize fuel (count, (s, m))
        = some (some (gen s).1, (count + 1, ((gen s).2, m + 1))) := by
      simp [Limit.next, counted, hne, hup]
    have hjk : j + 1 + k = (j + k) + 1 := by omega
    rw [hjk]
    simp only [invocations, hstep]
    rw [ih (count + 1) (gen s).2 (m + 1) (by push_cast at hc ⊢; omega)]
    simp only [generated, List.map_cons, List.cons_append, Option.some.injEq, Prod.mk.injEq,
      true_and]
    omega

/-- Over an upstream that always yields, the `Limit` iterator yields the next
`maxSize - count` elements and then signals termination. -/
theorem Limit_yields_generated {σ : Type} (up : iterator σ T) (gen : σ → T × σ)
    (hup : ∀ fuel s, up fuel s = some (some (gen s).1, (gen s).2)) (maxSize : Int) :
    ∀ (j : Nat) (count : Int) (s : σ), count + j = maxSize →
      Yields (Limit.next up maxSize) (count, s) (generated gen j s).1
        (maxSize, (generated gen j s).2) := by
  intro j
  induction j with
  | zero =>
    intro count s hc
    have : count = maxSize := by omega
    subst this
    exact Yields.done (f := 0) (Limit_next_at_max up count 0 s)
  | succ j ih =>
    intro count s hc
    have hne : count ≠ maxSize := by omega
    exact Yields.more (f := 0) (by simp [Limit.next, hne, hup])
      (ih (count + 1) (gen s).2 (by push_cast at hc ⊢; omega))

/-- C6: for every infinite source (an iterator `up` that always yields: the
element and the next state are given by `gen`), instrumented with a counter of
its invocations, and every `n ≥ 0`: the first `n` invocations of the
`Limit(n)` iterator yield the first `n` elements of the source in order, any
number `k` of further invocations all return exhaustion, and after all of them
upstream has been invoked exactly `n` times; draining it returns those `n`
elements; for the counting source `0, 1, 2, ...` and `n = 3` the output is
`[0, 1, 2]`. -/
theorem Limit_over_infinite_source {σ : Type} (up : iterator σ T) (gen : σ → T × σ)
    (hup : ∀ fuel s, up fuel s = some (some (gen s).1, (gen s).2)) (n : Int) (hn : 0 ≤ n)
    (s0 : σ) (fuel k : Nat) :
    invocations (Limit.next (counted up) n) fuel (n.toNat + k) (0, (s0, 0))
        = some ((generated gen n.toNat s0).1.map some ++ List.replicate k none,
            (n, ((generated gen n.toNat s0).2, n.toNat))) ∧
      (∃ F, ∀ fuel', F ≤ fuel' →
        (drain (Limit.next up n) fuel' (0, s0)).map Prod.fst = some (generated gen n.toNat s0).1) ∧
      ∃ F, ∀ fuel', F ≤ fuel' →
        ((Iterate (0 : Int) (· + 1)).Limit 3).ToSlice fuel' = some [0, 1, 2] := by
  refine ⟨?_, ?_, ?_⟩
  · have h := invocations_Limit_generated up gen hup n fuel k n.toNat 0 s0 0 (by omega)
    simpa using h
  · have hmono : FuelMono (Limit.next up n) :=
      Limit_next_mono (fun f f' s r _ h => by rw [hup] at h ⊢; exact h) n
    obtain ⟨F, hF⟩ := drain_of_yields hmono
      (Limit_yields_generated up gen hup n n.toNat 0 s0 (by omega))
    exact ⟨F, fun fuel' hle => by rw [hF fuel' hle]; rfl⟩
  · have hy := Limit_yields_generated (Iterate.next (fun x : Int => x + 1))
      (fun s => (s, s + 1)) (fun _ _ => rfl) 3 3 0 (0 : Int) (by decide)
    have hmono : FuelMono (Limit.next (Iterate.next (fun x : Int => x + 1)) 3) :=
      Limit_next_mono (Iterate_next_mono _) 3
    have hprod : Produces ((Iterate (0 : Int) (· + 1)).Limit 3) [0, 1, 2] :=
      ⟨hmono, ((0 : Int), (0 : Int)), _, ⟨0, fun _ _ => rfl⟩, hy⟩
    exact Produces_toSlice hprod

/-- The statement of C6 at the counting source and `n = 3`, with two further
invocations. -/
theorem Limit_over_infinite_source_witness :
    (∀ (fuel : Nat) (s : Int), Iterate.next (fun x : Int => x + 1) fuel s = some (some s, s + 1)) ∧
      (0 : Int) ≤ 3 ∧
      invocations (Limit.next (counted (Iterate.next (fun x : Int => x + 1))) 3) 0 (3 + 2)
        (0, (0, 0)) = some ([some 0, some 1, some 2, none, none], (3, (3, 3))) :=
  ⟨fun _ _ => rfl, by decide, (Limit_over_infinite_source (Iterate.next (fun x : Int => x + 1))
    (fun s => (s, s + 1)) (fun _ _ => rfl) 3 (by decide) 0 0 2).1⟩

/-- C7: for every finite sequence `S`, draining the iterator of `Distinct(S)`
returns, with enough fuel, a list `R` in which every value of `S` occurs
exactly once and nothing else occurs, without duplicates, a subsequence of
`S`, ordered by the first occurrences in `S`, and no longer than `S`; for
`S = [3, 1, 2, 1]` it is `[3, 1, 2]`. -/
theorem Distinct_toSlice_first_occurrences [DecidableEq T] (S : List T) :
    (∃ R, (∃ F, ∀ fuel, F ≤ fuel → (Distinct (OfSlice S)).ToSlice fuel = some R) ∧
        (∀ x, x ∈ S → R.count x = 1) ∧ (∀ x, x ∈ R → x ∈ S) ∧ R.Nodup ∧ R.Sublist S ∧
        (∀ a b, a ∈ S → b ∈ S → (R.indexOf a < R.indexOf b ↔ S.indexOf a < S.indexOf b)) ∧
        R.length ≤ S.length) ∧
      ∃ F, ∀ fuel, F ≤ fuel →
        (Distinct (OfSlice [(3 : Int), 1, 2, 1])).ToSlice fuel = some [3, 1, 2] := by
  refine ⟨⟨firstOccurrences [] S, Produces_toSlice (Distinct_produces (OfSlice_produces S)),
    ?_, ?_, nodup_firstOccurrences S [], sublist_firstOccurrences S [], ?_, ?_⟩, ?_⟩
  · intro x hx
    exact List.count_eq_one_of_mem (nodup_firstOccurrences S [])
      ((mem_firstOccurrences S [] x).mpr ⟨hx, by simp⟩)
  · intro x hx
    exact ((mem_firstOccurrences S [] x).mp hx).1
  · intro a b ha hb
    exact indexOf_firstOccurrences S [] a b ha hb (by simp) (by simp)
  · exact (sublist_firstOccurrences S []).length_le
  · exact Produces_toSlice (Distinct_produces (OfSlice_produces [(3 : Int), 1, 2, 1]))

/-- C8: for every finite sequence `S` from a finite-tagged source and every
comparator `c` with which `SortSlice` sorts (it returns a permutation of its
slice that is non-decreasing under `c`), `Sorted(S, c)` is constructed and
draining its iterator returns, with enough fuel, a permutation of `S` that is
non-decreasing under `c`; for `S = [3, 1, 2]` and the ascending comparator the
result is `[1, 2, 3]`, whatever sort `SortSlice` is. -/
theorem Sorted_toSlice_sorted_perm (SortSlice : List T → (T → T → Int) → List T)
    (S : List T) (c : T → T → Int)
    (hsort : ∀ xs, (SortSlice xs c).Perm xs ∧ (SortSlice xs c).Pairwise (fun a b => c a b ≤ 0)) :
    (∃ out, (OfSlice S).Sorted SortSlice c = Except.ok out ∧
        ∃ R, (∃ F, ∀ fuel, F ≤ fuel → out.ToSlice fuel = some R) ∧
          R.Perm S ∧ R.Pairwise (fun a b => c a b ≤ 0)) ∧
      ∀ SortInts : List Int → (Int → Int → Int) → List Int,
        (∀ xs, (SortInts xs ascending).Perm xs ∧
            (SortInts xs ascending).Pairwise (fun a b => ascending a b ≤ 0)) →
        ∃ out, (OfSlice [(3 : Int), 1, 2]).Sorted SortInts ascending = Except.ok out ∧
          ∃ F, ∀ fuel, F ≤ fuel → out.ToSlice fuel = some [1, 2, 3] := by
  constructor
  · obtain ⟨out, hout⟩ := Sorted_ok_of_finite SortSlice (OfSlice S) c rfl
    exact ⟨out, hout, SortSlice S c,
      Produces_toSlice (Sorted_produces SortSlice c (OfSlice_produces S) out hout),
      (hsort S).1, (hsort S).2⟩
  · intro SortInts hs
    obtain ⟨out, hout⟩ := Sorted_ok_of_finite SortInts (OfSlice [(3 : Int), 1, 2]) ascending rfl
    refine ⟨out, hout, ?_⟩
    have h := Produces_toSlice
      (Sorted_produces SortInts ascending (OfSlice_produces [(3 : Int), 1, 2]) out hout)
    rw [sorted_perm_312 _ (hs _).1 (hs _).2] at h
    exact h

/-- The statement of C8 at `S = [3, 1, 2]`, the ascending comparator and
insertion sort. -/
theorem Sorted_toSlice_sorted_perm_witness :
    (∀ xs, (insertionSortSlice xs ascending).Perm xs ∧
        (insertionSortSlice xs ascending).Pairwise (fun a b => ascending a b ≤ 0)) ∧
      ∃ out, (OfSlice [(3 : Int), 1, 2]).Sorted insertionSortSlice ascending = Except.ok out ∧
        ∃ F, ∀ fuel, F ≤ fuel → out.ToSlice fuel = some [1, 2, 3] :=
  ⟨insertionSortSlice_ascending,
    (Sorted_toSlice_sorted_perm insertionSortSlice [(3 : Int), 1, 2] ascending
      insertionSortSlice_ascending).2 insertionSortSlice insertionSortSlice_ascending⟩

/-- C9: for every finite sequence `S` and every predicate `p`, draining the
iterator of `Filter(S, p)` returns, with enough fuel, exactly `S.filter p`, the
elements of `S` that satisfy `p`, in the order of `S`. -/
theorem Filter_toSlice_filter (S : List T) (p : T → Bool) :
    ∃ F, ∀ fuel, F ≤ fuel → ((OfSlice S).Filter p).ToSlice fuel = some (S.filter p) :=
  Produces_toSlice (Filter_produces p (OfSlice_produces S))

/-- C10: for every finite sequence `S` and every mapper `f`, draining the
iterator of `Map(S, f)` returns, with enough fuel, exactly `[f x | x ∈ S]`, of
the length and in the order of `S`. -/
theorem Map_toSlice_map (S : List IT) (f : IT → OT) :
    (∃ F, ∀ fuel, F ≤ fuel → (Map (OfSlice S) f).ToSlice fuel = some (S.map f)) ∧
      (S.map f).length = S.length :=
  ⟨Produces_toSlice (Map_produces f (OfSlice_produces S)), List.length_map S f⟩

/-- C12: the tag of the stateless stages: for every stream `s`, `Map(s, f)`,
`s.Map(f)` and `s.Filter(p)` carry the tag of `s`, and `s.Limit(n)` is tagged
finite for every `n`, whatever the tag of `s`; over the counting source, which
is tagged infinite, `Limit(3)` is tagged finite. -/
theorem stateless_stage_tags (s : iterableStream T) (f : T → OT) (g : T → T) (p : T → Bool)
    (n : Int) :
    (Map s f).isInfinite = s.isInfinite ∧ (s.Map g).isInfinite = s.isInfinite ∧
      (s.Filter p).isInfinite = s.isInfinite ∧ (s.Limit n).isInfinite = false ∧
      (Iterate (0 : Int) (· + 1)).isInfinite = true ∧
      ((Iterate (0 : Int) (· + 1)).Limit 3).isInfinite = false :=
  ⟨rfl, rfl, rfl, rfl, rfl, rfl⟩

/-- The iterator of a `Map` over a `Map` is the iterator of the `Map` of the
composed mapper: every invocation returns the same result and leaves the same
state. -/
theorem Map_next_comp {σ A B C : Type} (up : iterator σ A) (f : A → B) (g : B → C) :
    Map.next (Map.next up f) g = Map.next up (g ∘ f) := by
  funext fuel s
  simp only [Map.next]
  cases hu : up fuel s with
  | none => rfl
  | some v =>
    obtain ⟨o, s'⟩ := v
    cases o <;> rfl

/-- C13: `Map(f)` then `Map(g)` is `Map(g ∘ f)`: over every input stream the
two pipelines are the same stream (same tag, same fresh iterator, and every
invocation of their iterators returns the same result, the signal of
termination included), so any number of invocations gives the same results
and `ToSlice` gives the same slice; over a finite sequence `S` both give
`[g (f x) | x ∈ S]`. -/
theorem Map_Map_compose {A B C : Type} (S : List A) (f : A → B) (g : B → C) :
    (∀ st : iterableStream A, Map (Map st f) g = Map st (g ∘ f)) ∧
      (∀ fuel k s, invocations (Map (Map (OfSlice S) f) g).next fuel k s
        = invocations (Map (OfSlice S) (g ∘ f)).next fuel k s) ∧
      (∀ fuel, (Map (Map (OfSlice S) f) g).ToSlice fuel = (Map (OfSlice S) (g ∘ f)).ToSlice fuel) ∧
      ∃ F, ∀ fuel, F ≤ fuel →
        (Map (Map (OfSlice S) f) g).ToSlice fuel = some (S.map (g ∘ f)) ∧
          (Map (OfSlice S) (g ∘ f)).ToSlice fuel = some (S.map (g ∘ f)) := by
  have heq : ∀ st : iterableStream A, Map (Map st f) g = Map st (g ∘ f) := by
    intro st
    simp only [Map, iterableStream.isInfinite, iterableStream.iterator, Map_next_comp]
  refine ⟨heq, ?_, ?_, ?_⟩
  · intro fuel k s
    show invocations (Map.next (Map.next OfSlice.next f) g) fuel k s
      = invocations (Map.next OfSlice.next (g ∘ f)) fuel k s
    rw [Map_next_comp]
  · intro fuel
    rw [heq]
  · obtain ⟨F, hF⟩ := Produces_toSlice (Map_produces (g ∘ f) (OfSlice_produces S))
    exact ⟨F, fun fuel hle => ⟨by rw [heq]; exact hF fuel hle, hF fuel hle⟩⟩

/-- C16: every invocation of a `Map` iterator invokes its upstream iterator
exactly once (the counter of upstream invocations goes up by one): if upstream
yields `n` it returns `mapper n`, and if upstream signals termination it
returns termination, the same whatever the mapper is; it returns exactly when
the upstream invocation returns. -/
theorem Map_next_pulls_once {σ : Type} (up : iterator σ IT) (mapper : IT → OT) (fuel : Nat)
    (s : σ) (m : Nat) :
    (∀ n s', up fuel s = some (some n, s') →
        Map.next (counted up) mapper fuel (s, m) = some (some (mapper n), (s', m + 1))) ∧
      (∀ s', up fuel s = some (none, s') →
        ∀ mapper' : IT → OT, Map.next (counted up) mapper' fuel (s, m) = some (none, (s', m + 1))) ∧
      (up fuel s = none → Map.next (counted up) mapper fuel (s, m) = none) ∧
      (∀ r st', Map.next (counted up) mapper fuel (s, m) = some (r, st') → st'.2 = m + 1) := by
  refine ⟨?_, ?_, ?_, ?_⟩
  · intro n s' h
    simp [Map.next, counted, h]
  · intro s' h mapper'
    simp [Map.next, counted, h]
  · intro h
    simp [Map.next, counted, h]
  · intro r st' h
    simp only [Map.next, counted] at h
    cases hu : up fuel s with
    | none => simp [hu] at h
    | some v =>
      rw [hu] at h
      obtain ⟨o, s1⟩ := v
      cases o with
      | none =>
        simp only [Option.some.injEq, Prod.mk.injEq] at h
        rw [← h.2]
      | some n =>
        simp only [Option.some.injEq, Prod.mk.injEq] at h
        rw [← h.2]

/-- The statement of C16 at the slice source: on `[4, 5]` an invocation yields
`4 * 10` and on `[]` it signals termination; each counts one upstream
invocation. -/
theorem Map_next_pulls_once_witness :
    Map.next (counted OfSlice.next) (fun x : Int => x * 10) 0 ([4, 5], 0) = some (some 40, ([5], 1)) ∧
      Map.next (counted OfSlice.next) (fun x : Int => x * 10) 0 ([], 1) = some (none, ([], 2)) :=
  ⟨(Map_next_pulls_once OfSlice.next (fun x : Int => x * 10) 0 [4, 5] 0).1 4 [5] rfl,
    (Map_next_pulls_once OfSlice.next (fun x : Int => x * 10) 0 [] 1).2.1 [] rfl _⟩

/-- With `count` above `maxSize` the test `count == maxSize` never succeeds:
the `Limit` iterator yields all that upstream yields, and sets `count` to
`maxSize` when upstream terminates. -/
theorem Limit_yields_all {σ : Type} {up : iterator σ T} (maxSize : Int) {s s' : σ} {S : List T}
    (h : Yields up s S s') (count : Int) (hc : maxSize < count) :
    Yields (Limit.next up maxSize) (count, s) S (maxSize, s') := by
  induction h generalizing count with
  | @done f s s' h0 =>
    have hne : count ≠ maxSize := by omega
    exact Yields.done (f := f) (by simp [Limit.next, hne, h0])
  | @more f s s1 s' x xs h0 _ ih =>
    have hne : count ≠ maxSize := by omega
    exact Yields.more (f := f) (by simp [Limit.next, hne, h0]) (ih (count + 1) (by omega))

theorem OfSlice_next_yields (S : List T) : Yields (OfSlice.next (T := T)) S S [] := by
  induction S with
  | nil => exact Yields.done (f := 0) rfl
  | cons x xs ih => exact Yields.more (f := 0) rfl ih

theorem OfSlice_next_mono : FuelMono (OfSlice.next (T := T)) :=
  fun _ _ _ _ _ h => h

/-- C19: `Limit` with a negative `maxSize` imposes no limit (`count` an
unbounded integer): for every finite sequence `S` and every `maxSize < 0`,
draining the iterator of `S.Limit(maxSize)` returns, with enough fuel, all of
`S` in order and leaves `count = maxSize`, and from then on every invocation
returns termination. -/
theorem Limit_negative_no_limit (S : List T) (maxSize : Int) (hneg : maxSize < 0) :
    (∃ F, ∀ fuel, F ≤ fuel → ((OfSlice S).Limit maxSize).ToSlice fuel = some S) ∧
      (∃ F, ∀ fuel, F ≤ fuel →
        drain (Limit.next OfSlice.next maxSize) fuel (0, S) = some (S, (maxSize, []))) ∧
      ∀ k fuel, invocations (Limit.next (OfSlice.next (T := T)) maxSize) fuel k (maxSize, [])
        = some (List.replicate k none, (maxSize, [])) := by
  have hy := Limit_yields_all maxSize (OfSlice_next_yields S) 0 hneg
  have hmono := Limit_next_mono (OfSlice_next_mono (T := T)) maxSize
  refine ⟨?_, drain_of_yields hmono hy, fun k fuel => invocations_Limit_at_max _ maxSize fuel [] k⟩
  have hprod : Produces ((OfSlice S).Limit maxSize) S :=
    ⟨hmono, ((0 : Int), S), (maxSize, []), ⟨0, fun _ _ => rfl⟩, hy⟩
  exact Produces_toSlice hprod

/-- The statement of C19 at `S = [1, 2, 3]` and `maxSize = -1`. -/
theorem Limit_negative_no_limit_witness :
    (-1 : Int) < 0 ∧
      (∃ F, ∀ fuel, F ≤ fuel → ((OfSlice [(1 : Int), 2, 3]).Limit (-1)).ToSlice fuel
        = some [1, 2, 3]) :=
  ⟨by decide, (Limit_negative_no_limit [(1 : Int), 2, 3] (-1) (by decide)).1⟩

theorem firstOccurrences_of_nodup [DecidableEq T] (R : List T) :
    ∀ seen : List T, R.Nodup → (∀ x, x ∈ R → x ∉ seen) → firstOccurrences seen R = R := by
  induction R with
  | nil => intro seen _ _; rfl
  | cons y ys ih =>
    intro seen hnd hdis
    have hy : y ∉ seen := hdis y (List.mem_cons_self y ys)
    rw [List.nodup_cons] at hnd
    simp only [firstOccurrences, hy, if_false]
    rw [ih (y :: seen) hnd.2]
    intro x hx
    simp only [List.mem_cons, not_or]
    exact ⟨fun h => hnd.1 (h ▸ hx), hdis x (List.mem_cons_of_mem y hx)⟩

/-- C20: `Distinct` is idempotent: for every finite sequence `S`, draining
`Distinct(Distinct(S))` and draining `Distinct(S)` return, with enough fuel,
the same slice. -/
theorem Distinct_idempotent [DecidableEq T] (S : List T) :
    ∃ R, (∃ F, ∀ fuel, F ≤ fuel → (Distinct (Distinct (OfSlice S))).ToSlice fuel = some R) ∧
      ∃ F, ∀ fuel, F ≤ fuel → (Distinct (OfSlice S)).ToSlice fuel = some R := by
  refine ⟨firstOccurrences [] S, ?_, Produces_toSlice (Distinct_produces (OfSlice_produces S))⟩
  have h := Produces_toSlice (Distinct_produces (Distinct_produces (OfSlice_produces S)))
  rw [firstOccurrences_of_nodup _ [] (nodup_firstOccurrences S []) (by simp)] at h
  exact h

/-! ## Idempotent exhaustion -/

/-- An iterator that never yields after termination returns termination on any
number of invocations after one. -/
theorem invocations_of_NoResurrection {σ : Type} {it : iterator σ T} (h : NoResurrection it) :
    ∀ (k f : Nat) (s s' : σ), it f s = some (none, s') →
      ∃ F s'', ∀ fuel, F ≤ fuel → invocations it fuel k s' = some (List.replicate k none, s'') := by
  intro k
  induction k with
  | zero => intro f s s' _; exact ⟨0, s', fun _ _ => rfl⟩
  | succ k ih =>
    intro f s s' h0
    obtain ⟨F1, s1, h1⟩ := h f s s' h0
    obtain ⟨F2, s2, h2⟩ := ih F1 s' s1 (h1 F1 (le_refl F1))
    refine ⟨max F1 F2, s2, fun fuel hle => ?_⟩
    simp only [invocations, h1 fuel (by omega), h2 fuel (by omega), List.replicate_succ]

theorem NoResurrection_Map {σ : Type} {up : iterator σ IT} (mapper : IT → OT)
    (h : NoResurrection up) : NoResurrection (Map.next up mapper) := by
  intro f s s' h0
  have hu : up f s = some (none, s') := by
    simp only [Map.next] at h0
    cases hu : up f s with
    | none => simp [hu] at h0
    | some v =>
      rw [hu] at h0
      obtain ⟨o, s1⟩ := v
      cases o with
      | none => simpa using h0
      | some n => simp at h0
  obtain ⟨F, s'', hF⟩ := h f s s' hu
  exact ⟨F, s'', fun f' hle => by simp [Map.next, hF f' hle]⟩

/-- An invocation of the `Filter` iterator that signals termination ends on an
upstream invocation that signalled termination. -/
theorem Filter_next_none {σ : Type} {up : iterator σ T} (p : T → Bool) :
    ∀ (f : Nat) (s s' : σ), Filter.next up p f s = some (none, s') →
      ∃ g s1, up g s1 = some (none, s') := by
  intro f
  induction f with
  | zero => intro s s' h; simp [Filter.next] at h
  | succ f ih =>
    intro s s' h
    simp only [Filter.next] at h
    cases hu : up f s with
    | none => simp [hu] at h
    | some v =>
      rw [hu] at h
      obtain ⟨o, s1⟩ := v
      cases o with
      | none =>
        simp only [Option.some.injEq, Prod.mk.injEq, true_and] at h
        subst h
        exact ⟨f, s, hu⟩
      | some n =>
        simp only at h
        by_cases hp : p n = true
        · simp [hp] at h
        · simp only [hp, Bool.false_eq_true, if_false] at h
          exact ih s1 s' h

theorem NoResurrection_Filter {σ : Type} {up : iterator σ T} (p : T → Bool)
    (h : NoResurrection up) : NoResurrection (Filter.next up p) := by
  intro f s s' h0
  obtain ⟨g, s1, hu⟩ := Filter_next_none p f s s' h0
  obtain ⟨F, s'', hF⟩ := h g s1 s' hu
  refine ⟨F + 1, s'', fun f' hle => ?_⟩
  obtain ⟨g', rfl⟩ : ∃ g', f' = g' + 1 := ⟨f' - 1, by omega⟩
  simp [Filter.next, hF g' (by omega)]

theorem NoResurrection_Limit {σ : Type} (up : iterator σ T) (maxSize : Int) :
    NoResurrection (Limit.next up maxSize) := by
  intro f s s' h0
  have hc := Limit_next_none_count up maxSize f s s' h0
  obtain ⟨c, s1⟩ := s'
  simp only at hc
  subst hc
  exact ⟨0, (c, s1), fun f' _ => Limit_next_at_max up c f' s1⟩

/-- An invocation of the `Distinct` iterator that signals termination ends on
an upstream invocation that signalled termination, and keeps the seen-set. -/
theorem Distinct_next_none {σ : Type} [DecidableEq T] {up : iterator σ T} :
    ∀ (f : Nat) (st st' : List T × σ), Distinct.next up f st = some (none, st') →
      st'.1 = st.1 ∧ ∃ g s1, up g s1 = some (none, st'.2) := by
  intro f
  induction f with
  | zero => intro st st' h; simp [Distinct.next] at h
  | succ f ih =>
    intro st st' h
    simp only [Distinct.next] at h
    cases hu : up f st.2 with
    | none => simp [hu] at h
    | some v =>
      rw [hu] at h
      obtain ⟨o, s1⟩ := v
      cases o with
      | none =>
        simp only [Option.some.injEq, Prod.mk.injEq, true_and] at h
        subst h
        exact ⟨rfl, f, st.2, hu⟩
      | some n =>
        simp only at h
        by_cases hm : n ∈ st.1
        · simp only [hm, if_true] at h
          exact ih (st.1, s1) st' h
        · simp [hm] at h

theorem NoResurrection_Distinct {σ : Type} [DecidableEq T] {up : iterator σ T}
    (h : NoResurrection up) : NoResurrection (Distinct.next up) := by
  intro f st st' h0
  obtain ⟨_, g, s1, hu⟩ := Distinct_next_none f st st' h0
  obtain ⟨F, s'', hF⟩ := h g s1 st'.2 hu
  refine ⟨F + 1, (st'.1, s''), fun f' hle => ?_⟩
  obtain ⟨g', rfl⟩ : ∃ g', f' = g' + 1 := ⟨f' - 1, by omega⟩
  simp [Distinct.next, hF g' (by omega)]

theorem NoResurrection_Sorted : NoResurrection (Sorted.next (T := T)) := by
  intro f items s' h0
  cases items with
  | nil =>
    simp only [Sorted.next, finishedIterator, Option.some.injEq, Prod.mk.injEq, true_and] at h0
    subst h0
    exact ⟨0, [], fun _ _ => rfl⟩
  | cons x xs => simp [Sorted.next] at h0

theorem NoResurrection_of_Staged {st : iterableStream T} (h : Staged st) :
    NoResurrection st.next := by
  induction h with
  | source src hsrc => exact hsrc
  | map st mapper _ ih => exact NoResurrection_Map mapper ih
  | filter st p _ ih => exact NoResurrection_Filter p ih
  | limit st n _ _ => exact NoResurrection_Limit st.next n
  | distinct st _ ih => exact NoResurrection_Distinct ih
  | sorted SortSlice st c out _ hout _ =>
    simp only [iterableStream.Sorted] at hout
    cases ha : assertFinite st with
    | error e => rw [ha] at hout; simp at hout
    | ok u =>
      rw [ha] at hout
      simp only [Except.ok.injEq] at hout
      subst hout
      exact NoResurrection_Sorted

/-- C11: idempotent exhaustion is preserved by every stage.  For every
pipeline built from `Map`, `Filter`, `Limit`, `Distinct` and `Sorted` stages
over a source whose iterator never yields after it has signalled termination:
after an invocation of the pipeline's iterator (in any state) that returned
`has_value = false`, any number `k` of further invocations all return, with
enough fuel, `has_value = false`. -/
theorem idempotent_exhaustion {st : iterableStream T} (h : Staged st) (f : Nat) (s s' : st.σ)
    (hnone : st.next f s = some (none, s')) (k : Nat) :
    ∃ F s'', ∀ fuel, F ≤ fuel → invocations st.next fuel k s' = some (List.replicate k none, s'') :=
  invocations_of_NoResurrection (NoResurrection_of_Staged h) k f s s' hnone

theorem OfSlice_NoResurrection : NoResurrection (OfSlice.next (T := T)) := by
  intro f s s' h0
  cases s with
  | nil =>
    simp only [OfSlice.next, Option.some.injEq, Prod.mk.injEq, true_and] at h0
    subst h0
    exact ⟨0, [], fun _ _ => rfl⟩
  | cons x xs => simp [OfSlice.next] at h0

/-- The statement of C11 at `Map(x * 10)` over `Filter(isEven)` over
`[1, 2]`: the iterator, with `[1]` left upstream, rejects `1` and signals
termination; three further invocations signal termination. -/
theorem idempotent_exhaustion_witness :
    Staged (Map ((OfSlice [(1 : Int), 2]).Filter (· % 2 == 0)) (· * 10)) ∧
      Map.next (Filter.next OfSlice.next (fun x : Int => x % 2 == 0)) (fun x : Int => x * 10) 2 [1]
        = some (none, []) ∧
      ∃ F s'', ∀ fuel, F ≤ fuel →
        invocations (Map.next (Filter.next OfSlice.next (fun x : Int => x % 2 == 0))
          (fun x : Int => x * 10)) fuel 3 [] = some (List.replicate 3 none, s'') :=
  have h : Staged (Map ((OfSlice [(1 : Int), 2]).Filter (· % 2 == 0)) (· * 10)) :=
    Staged.map _ _ (Staged.filter _ _
      (Staged.source (OfSlice [(1 : Int), 2]) OfSlice_NoResurrection))
  ⟨h, rfl, idempotent_exhaustion h 2 [1] [] rfl 3⟩

/-! ## The seen-set of `Distinct` -/

/-- One invocation of the `Distinct` iterator over a logged upstream: the
elements pulled are some skipped elements, all of them in the seen-set already,
followed by the element returned, if any; that element was not in the seen-set
and is added to it. -/
theorem Distinct_next_logged {σ : Type} [DecidableEq T] (up : iterator σ T) :
    ∀ (fuel : Nat) (seen : List T) (s : σ) (log : List T) (r : Option T) (seen' : List T)
      (s' : σ) (log' : List T),
      Distinct.next (logged up) fuel (seen, (s, log)) = some (r, (seen', (s', log'))) →
      ∃ skipped, log' = log ++ skipped ++ r.toList ∧ (∀ x, x ∈ skipped → x ∈ seen) ∧
        seen' = r.toList ++ seen ∧ ∀ x, r = some x → x ∉ seen := by
  intro fuel
  induction fuel with
  | zero => intro seen s log r seen' s' log' h; simp [Distinct.next] at h
  | succ f ih =>
    intro seen s log r seen' s' log' h
    simp only [Distinct.next, logged] at h
    cases hu : up f s with
    | none => simp [hu] at h
    | some v =>
      rw [hu] at h
      obtain ⟨o, s1⟩ := v
      cases o with
      | none =>
        simp only [Option.toList, List.append_nil, Option.some.injEq, Prod.mk.injEq] at h
        obtain ⟨rfl, rfl, rfl, rfl⟩ := h
        exact ⟨[], by simp, by simp, by simp, by simp⟩
      | some n =>
        simp only [Option.toList] at h
        by_cases hm : n ∈ seen
        · simp only [hm, if_true] at h
          obtain ⟨skipped, h1, h2, h3, h4⟩ := ih seen s1 (log ++ [n]) r seen' s' log' h
          refine ⟨n :: skipped, by simp [h1], ?_, h3, h4⟩
          intro x hx
          rcases List.mem_cons.mp hx with rfl | hx
          · exact hm
          · exact h2 x hx
        · simp only [hm, if_false, Option.some.injEq, Prod.mk.injEq] at h
          obtain ⟨rfl, rfl, rfl, rfl⟩ := h
          refine ⟨[], by simp, by simp, by simp, ?_⟩
          intro x hx
          simp only [Option.some.injEq] at hx
          subst hx
          exact hm

/-- After any number of invocations from a state with seen-set `seen0`: the
seen-set is `seen0` and the elements returned, the elements returned are
pairwise distinct and were not in `seen0`, and every element pulled since is in
the seen-set. -/
theorem Distinct_invocations_logged {σ : Type} [DecidableEq T] (up : iterator σ T) (fuel : Nat) :
    ∀ (k : Nat) (seen0 : List T) (s : σ) (log0 : List T) (rs : List (Option T))
      (seen : List T) (s' : σ) (log : List T),
      invocations (Distinct.next (logged up)) fuel k (seen0, (s, log0))
        = some (rs, (seen, (s', log))) →
      seen = rs.reduceOption.reverse ++ seen0 ∧ rs.reduceOption.Nodup ∧
        (∀ x, x ∈ rs.reduceOption → x ∉ seen0) ∧
        ∃ pulled, log = log0 ++ pulled ∧ ∀ x, x ∈ pulled → x ∈ seen := by
  intro k
  induction k with
  | zero =>
    intro seen0 s log0 rs seen s' log h
    simp only [invocations, Option.some.injEq, Prod.mk.injEq] at h
    obtain ⟨rfl, rfl, rfl, rfl⟩ := h
    exact ⟨by simp, by simp, by simp, [], by simp, by simp⟩
  | succ k ih =>
    intro seen0 s log0 rs seen s' log h
    simp only [invocations] at h
    cases h1 : Distinct.next (logged up) fuel (seen0, (s, log0)) with
    | none => simp [h1] at h
    | some v =>
      rw [h1] at h
      obtain ⟨r, seen1, s1, log1⟩ := v
      simp only at h
      cases h2 : invocations (Distinct.next (logged up)) fuel k (seen1, (s1, log1)) with
      | none => simp [h2] at h
      | some w =>
        rw [h2] at h
        obtain ⟨rs', seen2, s2, log2⟩ := w
        simp only [Option.some.injEq, Prod.mk.injEq] at h
        obtain ⟨rfl, rfl, rfl, rfl⟩ := h
        obtain ⟨skipped, hl, hsk, hs1, hnew⟩ := Distinct_next_logged up fuel seen0 s log0 r seen1 s1 log1 h1
        obtain ⟨hseen, hnd, hdis, pulled, hlog, hp⟩ := ih seen1 s1 log1 rs' seen2 s2 log2 h2
        subst hs1
        cases r with
        | none =>
          simp only [Option.toList, List.nil_append, List.append_nil] at hseen hdis hl
          rw [List.reduceOption_cons_of_none]
          refine ⟨hseen, hnd, hdis, skipped ++ pulled, by rw [hlog, hl, List.append_assoc], ?_⟩
          intro x hx
          rcases List.mem_append.mp hx with hx | hx
          · rw [hseen]; exact List.mem_append_right _ (hsk x hx)
          · exact hp x hx
        | some y =>
          simp only [Option.toList, List.singleton_append] at hseen hdis hl
          rw [List.reduceOption_cons_of_some]
          have hy0 : y ∉ seen0 := hnew y rfl
          refine ⟨by rw [hseen]; simp, ?_, ?_, skipped ++ [y] ++ pulled, ?_, ?_⟩
          · rw [List.nodup_cons]
            exact ⟨fun hy => hdis y hy (List.mem_cons_self y seen0), hnd⟩
          · intro x hx
            rcases List.mem_cons.mp hx with rfl | hx
            · exact hy0
            · exact fun hx0 => hdis x hx (List.mem_cons_of_mem y hx0)
          · rw [hlog, hl]; simp
          · intro x hx
            simp only [List.mem_append, List.mem_singleton] at hx
            rcases hx with (hx | rfl) | hx
            · rw [hseen]
              exact List.mem_append_right _ (List.mem_cons_of_mem _ (hsk x hx))
            · rw [hseen]
              exact List.mem_append_right _ (List.mem_cons_self _ _)
            · exact hp x hx

/-- C18: the seen-set invariant of `Distinct`.  Over every upstream iterator
(instrumented with a log of the elements it yields), after `k` invocations of
a fresh `Distinct` iterator that returned `rs`: the seen-set holds exactly the
elements returned so far, these are pairwise distinct, and every element
pulled from upstream is in the seen-set; and in each invocation, from any
state, the elements pulled are skipped elements that were in the seen-set
already, then the element returned, which was not in it and is added. -/
theorem Distinct_seen_set_invariant {σ : Type} [DecidableEq T] (up : iterator σ T)
    (fuel k : Nat) (s0 : σ) (rs : List (Option T)) (seen : List T) (s' : σ) (log : List T)
    (h : invocations (Distinct.next (logged up)) fuel k ([], (s0, []))
      = some (rs, (seen, (s', log)))) :
    (∀ x, x ∈ seen ↔ x ∈ rs.reduceOption) ∧ seen = rs.reduceOption.reverse ∧
      rs.reduceOption.Nodup ∧ (∀ x, x ∈ log → x ∈ seen) ∧
      ∀ (f : Nat) (seen1 : List T) (s1 : σ) (log1 : List T) (r : Option T) (seen2 : List T)
        (s2 : σ) (log2 : List T),
        Distinct.next (logged up) f (seen1, (s1, log1)) = some (r, (seen2, (s2, log2))) →
        ∃ skipped, log2 = log1 ++ skipped ++ r.toList ∧ (∀ x, x ∈ skipped → x ∈ seen1) ∧
          seen2 = r.toList ++ seen1 ∧ ∀ x, r = some x → x ∉ seen1 := by
  obtain ⟨hseen, hnd, _, pulled, hlog, hp⟩ :=
    Distinct_invocations_logged up fuel k [] s0 [] rs seen s' log h
  simp only [List.append_nil, List.nil_append] at hseen hlog
  refine ⟨fun x => by rw [hseen]; simp, hseen, hnd, ?_, Distinct_next_logged up⟩
  intro x hx
  rw [hlog] at hx
  exact hp x hx

/-- The statement of C18 at three invocations over `[3, 1, 3, 2]`: `3` and `1`
are returned, the second `3` is skipped and `2` is returned. -/
theorem Distinct_seen_set_invariant_witness :
    invocations (Distinct.next (logged OfSlice.next)) 5 3 ([], ([(3 : Int), 1, 3, 2], []))
        = some ([some 3, some 1, some 2], ([2, 1, 3], ([], [3, 1, 3, 2]))) ∧
      (∀ x : Int, x ∈ [2, 1, 3] ↔ x ∈ [some (3 : Int), some 1, some 2].reduceOption) ∧
      ([some (3 : Int), some 1, some 2].reduceOption).Nodup :=
  have h : invocations (Distinct.next (logged OfSlice.next)) 5 3 ([], ([(3 : Int), 1, 3, 2], []))
      = some ([some 3, some 1, some 2], ([2, 1, 3], ([], [3, 1, 3, 2]))) := by decide
  ⟨h, (Distinct_seen_set_invariant OfSlice.next 5 3 _ _ _ _ _ h).1,
    (Distinct_seen_set_invariant OfSlice.next 5 3 _ _ _ _ _ h).2.2.1⟩

/-! ## Demand-driven composition -/

theorem counted_mono {σ : Type} {up : iterator σ T} (hup : FuelMono up) : FuelMono (counted up) := by
  intro f f' st r hle h
  simp only [counted] at h ⊢
  cases hu : up f st.1 with
  | none => simp [hu] at h
  | some v =>
    rw [hup f f' st.1 v hle hu]
    rw [hu] at h
    exact h

theorem pullsNeeded_zero (p : T → Bool) (L : List T) : pullsNeeded p 0 L = 0 := by
  cases L <;> rfl

/-- `Limit` over `Map` over `Filter` over a slice source with a counter of its
invocations: with `j` elements to go, the iterator yields the first `j`
mapped elements that satisfy `p`, and the source is invoked `pullsNeeded p j L`
times. -/
theorem Limit_Map_Filter_yields (p : T → Bool) (f : T → OT) (maxSize : Int) :
    ∀ (L : List T) (j : Nat) (count : Int) (m : Nat), count + j = maxSize →
      Yields (Limit.next (Map.next (Filter.next (counted OfSlice.next) p) f) maxSize)
        (count, (L, m)) (((L.filter p).map f).take j)
        (maxSize, (L.drop (pullsNeeded p j L), m + pullsNeeded p j L)) := by
  intro L
  induction L with
  | nil =>
    intro j count m hc
    cases j with
    | zero =>
      have : count = maxSize := by omega
      subst this
      exact Yields.done (f := 0) (Limit_next_at_max _ count 0 _)
    | succ j =>
      have hne : count ≠ maxSize := by omega
      exact Yields.done (f := 1)
        (by simp [Limit.next, Map.next, Filter.next, counted, OfSlice.next, hne, pullsNeeded])
  | cons x xs ih =>
    intro j count m hc
    cases j with
    | zero =>
      have : count = maxSize := by omega
      subst this
      rw [pullsNeeded_zero]
      exact Yields.done (f := 0) (Limit_next_at_max _ count 0 _)
    | succ j =>
      have hne : count ≠ maxSize := by omega
      by_cases hx : p x = true
      · have h1 := ih j (count + 1) (m + 1) (by push_cast at hc ⊢; omega)
        have hp : pullsNeeded p (j + 1) (x :: xs) = pullsNeeded p j xs + 1 := by
          simp [pullsNeeded, hx]
        rw [hp, List.filter_cons_of_pos hx, List.map_cons, List.take_succ_cons, List.drop_succ_cons]
        have hm : m + (pullsNeeded p j xs + 1) = m + 1 + pullsNeeded p j xs := by omega
        rw [hm]
        exact Yields.more (f := 1)
          (by simp [Limit.next, Map.next, Filter.next, counted, OfSlice.next, hne, hx]) h1
      · have hx' : p x = false := by simpa using hx
        have h1 := ih (j + 1) count (m + 1) hc
        have hp : pullsNeeded p (j + 1) (x :: xs) = pullsNeeded p (j + 1) xs + 1 := by
          simp [pullsNeeded, hx']
        rw [hp, List.filter_cons_of_neg hx, List.drop_succ_cons]
        have hm : m + (pullsNeeded p (j + 1) xs + 1) = m + 1 + pullsNeeded p (j + 1) xs := by omega
        rw [hm]
        refine Yields_of_first h1 (fun g r hg => ⟨g + 1, ?_⟩)
        rw [← hg]
        simp [Limit.next, Map.next, Filter.next, counted, OfSlice.next, hne, hx']

/-- When the list holds `n` elements satisfying `p`, `pullsNeeded p n L` is
the length of the shortest run at its head that holds `n` of them. -/
theorem pullsNeeded_enough (p : T → Bool) :
    ∀ (L : List T) (n : Nat), n ≤ (L.filter p).length →
      ((L.take (pullsNeeded p n L)).filter p).length = n ∧
        ∀ j, j < pullsNeeded p n L → ((L.take j).filter p).length < n := by
  intro L
  induction L with
  | nil =>
    intro n hn
    have : n = 0 := by simpa using hn
    subst this
    simp [pullsNeeded]
  | cons x xs ih =>
    intro n hn
    cases n with
    | zero => simp [pullsNeeded]
    | succ n =>
      by_cases hx : p x = true
      · rw [List.filter_cons_of_pos hx, List.length_cons] at hn
        obtain ⟨h1, h2⟩ := ih n (by omega)
        have hp : pullsNeeded p (n + 1) (x :: xs) = pullsNeeded p n xs + 1 := by
          simp [pullsNeeded, hx]
        rw [hp]
        refine ⟨by rw [List.take_succ_cons, List.filter_cons_of_pos hx, List.length_cons, h1], ?_⟩
        intro j hj
        cases j with
        | zero => simp
        | succ j =>
          rw [List.take_succ_cons, List.filter_cons_of_pos hx, List.length_cons]
          have := h2 j (by omega)
          omega
      · rw [List.filter_cons_of_neg hx] at hn
        obtain ⟨h1, h2⟩ := ih (n + 1) hn
        have hp : pullsNeeded p (n + 1) (x :: xs) = pullsNeeded p (n + 1) xs + 1 := by
          simp [pullsNeeded, hx]
        rw [hp]
        refine ⟨by rw [List.take_succ_cons, List.filter_cons_of_neg hx, h1], ?_⟩
        intro j hj
        cases j with
        | zero => simp
        | succ j =>
          rw [List.take_succ_cons, List.filter_cons_of_neg hx]
          exact h2 j (by omega)

/-- When the list holds fewer than `n` elements satisfying `p`, all of it is
looked at, and one more invocation finds it empty. -/
theorem pullsNeeded_short (p : T → Bool) :
    ∀ (L : List T) (n : Nat), (L.filter p).length < n → pullsNeeded p n L = L.length + 1 := by
  intro L
  induction L with
  | nil =>
    intro n hn
    cases n with
    | zero => simp at hn
    | succ n => rfl
  | cons x xs ih =>
    intro n hn
    cases n with
    | zero => simp at hn
    | succ n =>
      by_cases hx : p x = true
      · rw [List.filter_cons_of_pos hx, List.length_cons] at hn
        simp [pullsNeeded, hx, ih n (by omega)]
      · rw [List.filter_cons_of_neg hx] at hn
        simp [pullsNeeded, hx, ih (n + 1) hn]

/-- C14: demand-driven composition.  For every finite sequence `S`, predicate
`p`, mapper `f` and `n ≥ 0`: draining `Limit(n)` over `Map(f)` over `Filter(p)`
over `S` returns, with enough fuel, `(S.filter p).map f` truncated to `n`
elements; and with a counter of its invocations on the source, the source is
invoked `pulls` times in all, where, when `S` holds `n` elements satisfying
`p`, `pulls` is the length of the shortest run at the head of `S` that holds
`n` of them (no invocation for `n = 0`), and, when `S` holds fewer, `pulls` is
`len S + 1`.  For `S = [1, 2, 3, 4, 5]`, `p = isEven`, `f = x * 10`, `n = 1`
the output is `[20]`, the source is invoked twice and `[3, 4, 5]` is left. -/
theorem Limit_Map_Filter_demand_driven (S : List T) (p : T → Bool) (f : T → OT) (n : Int)
    (hn : 0 ≤ n) :
    (∃ F, ∀ fuel, F ≤ fuel →
        ((Map ((OfSlice S).Filter p) f).Limit n).ToSlice fuel
          = some (((S.filter p).map f).take n.toNat)) ∧
      (∃ pulls rest,
        (∃ F, ∀ fuel, F ≤ fuel →
          drain (Limit.next (Map.next (Filter.next (counted OfSlice.next) p) f) n) fuel
            (0, (S, 0)) = some (((S.filter p).map f).take n.toNat, (n, (rest, pulls)))) ∧
        (n.toNat ≤ (S.filter p).length →
          ((S.take pulls).filter p).length = n.toNat ∧
            ∀ j, j < pulls → ((S.take j).filter p).length < n.toNat) ∧
        ((S.filter p).length < n.toNat → pulls = S.length + 1) ∧
        (n = 0 → pulls = 0)) ∧
      (∃ F, ∀ fuel, F ≤ fuel →
        ((Map ((OfSlice [(1 : Int), 2, 3, 4, 5]).Filter (· % 2 == 0)) (· * 10)).Limit 1).ToSlice fuel
          = some [20]) ∧
      ∃ F, ∀ fuel, F ≤ fuel →
        drain (Limit.next (Map.next (Filter.next (counted OfSlice.next)
            (fun x : Int => x % 2 == 0)) (fun x : Int => x * 10)) 1) fuel
          (0, ([1, 2, 3, 4, 5], 0)) = some ([20], (1, ([3, 4, 5], 2))) := by
  have hmono : ∀ (q : T → Bool) (g : T → OT) (k : Int),
      FuelMono (Limit.next (Map.next (Filter.next (counted OfSlice.next) q) g) k) :=
    fun q g k => Limit_next_mono (Map_next_mono (Filter_next_mono
      (counted_mono OfSlice_next_mono) q) g) k
  refine ⟨?_, ?_, ?_, ?_⟩
  · exact Produces_toSlice
      (Limit_produces n hn (Map_produces f (Filter_produces p (OfSlice_produces S))))
  · refine ⟨pullsNeeded p n.toNat S, S.drop (pullsNeeded p n.toNat S), ?_,
      pullsNeeded_enough p S n.toNat, pullsNeeded_short p S n.toNat, ?_⟩
    · have hy := Limit_Map_Filter_yields p f n S n.toNat 0 0 (by omega)
      rw [Nat.zero_add] at hy
      exact drain_of_yields (hmono p f n) hy
    · intro h0
      subst h0
      exact pullsNeeded_zero p S
  · exact Produces_toSlice
      (Limit_produces 1 (by decide) (Map_produces (fun x : Int => x * 10)
        (Filter_produces (fun x : Int => x % 2 == 0) (OfSlice_produces [(1 : Int), 2, 3, 4, 5]))))
  · have hy := Limit_Map_Filter_yields (fun x : Int => x % 2 == 0) (fun x : Int => x * 10) 1
      [1, 2, 3, 4, 5] 1 0 0 (by decide)
    have hmono1 : FuelMono (Limit.next (Map.next (Filter.next (counted OfSlice.next)
        (fun x : Int => x % 2 == 0)) (fun x : Int => x * 10)) 1) :=
      Limit_next_mono (Map_next_mono (Filter_next_mono
        (counted_mono OfSlice_next_mono) _) _) 1
    exact drain_of_yields hmono1 hy

/-- The statement of C14 at `S = [1, 2, 3, 4, 5]`, `p = isEven`, `f = x * 10`
and `n = 1`. -/
theorem Limit_Map_Filter_demand_driven_witness :
    (0 : Int) ≤ 1 ∧
      ∃ F, ∀ fuel, F ≤ fuel →
        ((Map ((OfSlice [(1 : Int), 2, 3, 4, 5]).Filter (· % 2 == 0)) (· * 10)).Limit 1).ToSlice
          fuel = some ((([(1 : Int), 2, 3, 4, 5].filter (· % 2 == 0)).map (· * 10)).take 1) :=
  ⟨by decide, (Limit_Map_Filter_demand_driven [(1 : Int), 2, 3, 4, 5] (· % 2 == 0) (· * 10) 1
    (by decide)).1⟩

/-! ## Two iterators of one stream -/

/-- Sharing is expressible in the store: a second closure of `Limit(2)` given the
`count` cell of the first returns termination at once after the first has
yielded two elements.  The allocation of `count` inside `supply` is what rules
this out. -/
theorem Limit_shared_count_interferes :
    runTwo (Limit.invoke (OfSlice.next (T := Int)) 2 0) [true, true, false]
        (⟨0, 0⟩ : Limit.Closure) ⟨1, 0⟩
        (⟨[[1, 2, 3], [1, 2, 3]], [0], []⟩ : Store (List Int) Int)
      = some (([some 1, some 2], [none]), ⟨[[3], [1, 2, 3]], [2], []⟩) := rfl

theorem Sorted_eq_stream (SortSlice : List T → (T → T → Int) → List T) (s : iterableStream T)
    (c : T → T → Int) (h : s.isInfinite = false) :
    s.Sorted SortSlice c = Except.ok (Sorted.stream SortSlice s c) := by
  simp [iterableStream.Sorted, assertFinite, h]

/-- The `Sorted` iterator serves its buffer: on `items.length + k` invocations
it returns the elements of the buffer in order, then `k` terminations. -/
theorem invocations_Sorted_next (fuel k : Nat) :
    ∀ items : List T, invocations (Sorted.next (T := T)) fuel (items.length + k) items
      = some (items.map some ++ List.replicate k none, []) := by
  intro items
  induction items with
  | nil =>
    induction k with
    | zero => rfl
    | succ k ih =>
      simp only [List.length_nil, Nat.zero_add, List.map_nil, List.nil_append] at ih ⊢
      simp only [invocations, Sorted.next, finishedIterator, ih, List.replicate_succ]
  | cons x xs ih =>
    have hlen : (x :: xs).length + k = (xs.length + k) + 1 := by simp; omega
    rw [hlen]
    simp only [invocations, Sorted.next, ih, List.map_cons, List.cons_append]

/-- C15 (counterexample): `Sorted` does not wait for the first pull.  Over
`[3, 1, 2]` the stream is constructed and the state of a fresh iterator, as
`iterator()` returns it and before any invocation, is the whole sorted buffer
`[1, 2, 3]`.  Over `Limit(1)` over a `Filter` that rejects everything over the
counting source (tagged finite, so `Sorted` is constructed) `iterator()` never
returns, whatever the fuel, because it drains upstream; and so `ToSlice` of
`Limit(0)` over it never returns although `Limit(0)` invokes no iterator. -/
theorem Sorted_drains_on_iterator :
    (OfSlice [(3 : Int), 1, 2]).Sorted insertionSortSlice ascending
        = Except.ok (Sorted.stream insertionSortSlice (OfSlice [(3 : Int), 1, 2]) ascending) ∧
      (Sorted.stream insertionSortSlice (OfSlice [(3 : Int), 1, 2]) ascending).iterator 4
        = some ([1, 2, 3] : List Int) ∧
      limitOfEmptyFilter.Sorted insertionSortSlice ascending
        = Except.ok (Sorted.stream insertionSortSlice limitOfEmptyFilter ascending) ∧
      (∀ fuel, (Sorted.stream insertionSortSlice limitOfEmptyFilter ascending).iterator fuel
        = none) ∧
      ∀ fuel, ((Sorted.stream insertionSortSlice limitOfEmptyFilter ascending).Limit 0).ToSlice fuel
        = none := by
  have hnone : ∀ fuel,
      (Sorted.stream insertionSortSlice limitOfEmptyFilter ascending).iterator fuel = none := by
    intro fuel
    show (limitOfEmptyFilter.ToSlice fuel).map (fun items => insertionSortSlice items ascending)
      = none
    rw [limitOfEmptyFilter_toSlice]
    rfl
  refine ⟨rfl, rfl, rfl, hnone, ?_⟩
  intro fuel
  have h0 : ((Sorted.stream insertionSortSlice limitOfEmptyFilter ascending).Limit 0).iterator fuel
      = none := by
    show ((Sorted.stream insertionSortSlice limitOfEmptyFilter ascending).iterator fuel).map
      (fun s => ((0 : Int), s)) = none
    rw [hnone]
    rfl
  simp only [iterableStream.ToSlice, h0]

/-- C15 (amended): `Sorted` fills its buffer when the iterator is obtained.
For every upstream pipeline `is` that produces `S`: `iterator()` of the
`Sorted` stream returns, with enough fuel, an iterator whose buffer is
`SortSlice S`, the whole of upstream drained and sorted; it returns only if
draining upstream returns; and no invocation of the iterator pulls from
upstream: its code is the same whatever the upstream is, and on any buffer it
returns the elements of the buffer in order and then terminations. -/
theorem Sorted_buffers_on_iterator (SortSlice : List T → (T → T → Int) → List T)
    (is : iterableStream T) (c : T → T → Int) (S : List T) (hprod : Produces is S) :
    (∃ F, ∀ fuel, F ≤ fuel →
        (Sorted.stream SortSlice is c).iterator fuel = some (SortSlice S c)) ∧
      (∀ fuel, is.ToSlice fuel = none → (Sorted.stream SortSlice is c).iterator fuel = none) ∧
      (∀ fuel items, (Sorted.stream SortSlice is c).iterator fuel = some items →
        ∃ S', is.ToSlice fuel = some S' ∧ items = SortSlice S' c) ∧
      (∀ is' : iterableStream T,
        (Sorted.stream SortSlice is' c).next = (Sorted.stream SortSlice is c).next) ∧
      ∀ (items : List T) (fuel k : Nat),
        invocations (Sorted.stream SortSlice is c).next fuel (items.length + k) items
          = some (items.map some ++ List.replicate k none, []) := by
  obtain ⟨F, hF⟩ := Produces_toSlice hprod
  refine ⟨⟨F, fun fuel hle => ?_⟩, ?_, ?_, fun _ => rfl,
    fun items fuel k => invocations_Sorted_next fuel k items⟩
  · show (is.ToSlice fuel).map (fun items => SortSlice items c) = some (SortSlice S c)
    rw [hF fuel hle]
    rfl
  · intro fuel h
    show (is.ToSlice fuel).map (fun items => SortSlice items c) = none
    rw [h]
    rfl
  · intro fuel items h
    have h' : (is.ToSlice fuel).map (fun items => SortSlice items c) = some items := h
    cases ht : is.ToSlice fuel with
    | none => rw [ht] at h'; simp at h'
    | some S' =>
      rw [ht] at h'
      simp only [Option.map_some', Option.some.injEq] at h'
      exact ⟨S', rfl, h'.symm⟩

/-- The statement of C15 (amended) at `[3, 1, 2]`, the ascending comparator
and insertion sort. -/
theorem Sorted_buffers_on_iterator_witness :
    Produces (OfSlice [(3 : Int), 1, 2]) [3, 1, 2] ∧
      ∃ F, ∀ fuel, F ≤ fuel →
        (Sorted.stream insertionSortSlice (OfSlice [(3 : Int), 1, 2]) ascending).iterator fuel
          = some (insertionSortSlice [(3 : Int), 1, 2] ascending) :=
  ⟨OfSlice_produces _,
    (Sorted_buffers_on_iterator insertionSortSlice (OfSlice [(3 : Int), 1, 2]) ascending [3, 1, 2]
      (OfSlice_produces _)).1⟩

end stream
